import Mathlib

/-!
Verification development for the casadi symbolic-scalar core
(src/casadi/core/sx/sx_element.cpp) and the generic sparse-matrix
tools (src/symbolic/matrix/matrix_tools.hpp).

The embedding is shallow: C++ doubles are modelled by an extended
rational type (floating-point rounding is out of scope), pointers to
reference-counted expression nodes are modelled by indices into an
explicit heap list, and the process-wide constant caches are explicit
components of that heap.  Functions that recurse on heap-allocated
structures take an explicit fuel argument and return in Option/Except.
-/

set_option maxHeartbeats 1600000

namespace CasADi

/-! ## Doubles

A C++ double is modelled as an extended rational: NaN, plus/minus
infinity, or a finite rational value. -/

inductive Dbl where
  | nan : Dbl
  | inf : Dbl
  | minusInf : Dbl
  | fin (q : ℚ) : Dbl
deriving DecidableEq, Repr

/-- Truncation toward zero, the behaviour of static_cast from double to int. -/
def truncQ (q : ℚ) : ℤ := if 0 ≤ q then ⌊q⌋ else ⌈q⌉

/-- Negation of a double. -/
def dblNeg : Dbl → Dbl
  | .nan => .nan
  | .inf => .minusInf
  | .minusInf => .inf
  | .fin q => .fin (-q)

/-- Addition of doubles (NaN propagates, opposite infinities give NaN). -/
def dblAdd : Dbl → Dbl → Dbl
  | .nan, _ => .nan
  | _, .nan => .nan
  | .inf, .minusInf => .nan
  | .minusInf, .inf => .nan
  | .inf, _ => .inf
  | _, .inf => .inf
  | .minusInf, _ => .minusInf
  | _, .minusInf => .minusInf
  | .fin a, .fin b => .fin (a + b)

/-- Subtraction of doubles. -/
def dblSub (a b : Dbl) : Dbl := dblAdd a (dblNeg b)

/-- Multiplication of doubles (infinity times zero gives NaN). -/
def dblMul : Dbl → Dbl → Dbl
  | .nan, _ => .nan
  | _, .nan => .nan
  | .inf, .inf => .inf
  | .inf, .minusInf => .minusInf
  | .minusInf, .inf => .minusInf
  | .minusInf, .minusInf => .inf
  | .inf, .fin b => if b = 0 then .nan else if 0 < b then .inf else .minusInf
  | .fin a, .inf => if a = 0 then .nan else if 0 < a then .inf else .minusInf
  | .minusInf, .fin b => if b = 0 then .nan else if 0 < b then .minusInf else .inf
  | .fin a, .minusInf => if a = 0 then .nan else if 0 < a then .minusInf else .inf
  | .fin a, .fin b => .fin (a * b)

/-- Division of doubles (zero over zero gives NaN, nonzero over zero gives
a signed infinity). -/
def dblDiv : Dbl → Dbl → Dbl
  | .nan, _ => .nan
  | _, .nan => .nan
  | .inf, .inf => .nan
  | .inf, .minusInf => .nan
  | .minusInf, .inf => .nan
  | .minusInf, .minusInf => .nan
  | .inf, .fin b => if 0 ≤ b then .inf else .minusInf
  | .minusInf, .fin b => if 0 ≤ b then .minusInf else .inf
  | .fin _, .inf => .fin 0
  | .fin _, .minusInf => .fin 0
  | .fin a, .fin b =>
    if b = 0 then (if a = 0 then .nan else if 0 < a then .inf else .minusInf)
    else .fin (a / b)

/-- Square root of a double.  The true square root of a rational is in
general irrational; the rational stand-in Rat.sqrt is used.  No theorem in
this development depends on folded square-root values. -/
def dblSqrt : Dbl → Dbl
  | .nan => .nan
  | .inf => .inf
  | .minusInf => .nan
  | .fin q => if q < 0 then .nan else .fin (Rat.sqrt q)

/-! ## Expression nodes

The operations of the closed operation enumeration that are referenced by
the embedded routines of sx_element.cpp. -/

inductive Op where
  | neg | add | sub | mul | div | sq | sqrtOp | invOp | sin | cos
deriving DecidableEq, Repr

/-- One expression node, mirroring the SXNode class hierarchy: the special
constant singleton classes, cached integer and real constants, symbols,
and unary and binary operation nodes whose children are heap indices. -/
inductive NodeData where
  | zeroSX : NodeData
  | oneSX : NodeData
  | minusOneSX : NodeData
  | nanSX : NodeData
  | infSX : NodeData
  | minusInfSX : NodeData
  | integerSX (i : ℤ) : NodeData
  | realtypeSX (q : ℚ) : NodeData
  | symbolicSX (nm : String) : NodeData
  | unarySX (op : Op) (dep : ℕ) : NodeData
  | binarySX (op : Op) (dep0 dep1 : ℕ) : NodeData
deriving DecidableEq, Repr

/-- The heap of expression nodes together with the process-wide constant
caches (IntegerSX::cached_constants_ and RealtypeSX::cached_constants_).
A node handle is an index into the nodes list.  Reference counts only
govern deallocation and are not modelled; nodes are never removed. -/
structure SXHeap where
  nodes : List NodeData
  intCache : List (ℤ × ℕ)
  realCache : List (ℚ × ℕ)
deriving DecidableEq, Repr

/-- Handle of the permanently rooted casadi_limits zero singleton. -/
def zeroId : ℕ := 0
/-- Handle of the one singleton. -/
def oneId : ℕ := 1
/-- Handle of the two singleton (an IntegerSX created through the cache). -/
def twoId : ℕ := 2
/-- Handle of the minus-one singleton. -/
def minusOneId : ℕ := 3
/-- Handle of the NaN singleton. -/
def nanId : ℕ := 4
/-- Handle of the plus-infinity singleton. -/
def infId : ℕ := 5
/-- Handle of the minus-infinity singleton. -/
def minusInfId : ℕ := 6

/-- The nodes created by the static initialization of casadi_limits, in
their initialization order: zero, one, two (via IntegerSX::create, which
also seeds the integer cache), minus_one, nan, inf, minus_inf. -/
def initNodes : List NodeData :=
  [.zeroSX, .oneSX, .integerSX 2, .minusOneSX, .nanSX, .infSX, .minusInfSX]

/-- The heap right after static initialization. -/
def initHeap : SXHeap := ⟨initNodes, [(2, twoId)], []⟩

/-- The stored numeric value of a constant node, none for symbols and
operation nodes. -/
def kindValue? : NodeData → Option Dbl
  | .zeroSX => some (.fin 0)
  | .oneSX => some (.fin 1)
  | .minusOneSX => some (.fin (-1))
  | .nanSX => some .nan
  | .infSX => some .inf
  | .minusInfSX => some .minusInf
  | .integerSX i => some (.fin i)
  | .realtypeSX q => some (.fin q)
  | _ => none

/-- Node store lookup. -/
def nodeAt (h : SXHeap) (x : ℕ) : Option NodeData := h.nodes[x]?

/-- SXElement::isConstant. -/
def isConstantN (h : SXHeap) (x : ℕ) : Bool :=
  match nodeAt h x with
  | some nd => (kindValue? nd).isSome
  | none => false

/-- SXNode::getValue for constant nodes (defaults to 0 on non-constants,
where the C++ raises; every use below is guarded by isConstantN). -/
def getValueN (h : SXHeap) (x : ℕ) : Dbl :=
  ((nodeAt h x).bind kindValue?).getD (.fin 0)

/-- SXElement::isZero: a constant node holding the value zero. -/
def isZeroN (h : SXHeap) (x : ℕ) : Bool :=
  match nodeAt h x with
  | some nd => kindValue? nd == some (.fin 0)
  | none => false

/-- SXElement::isOne. -/
def isOneN (h : SXHeap) (x : ℕ) : Bool :=
  match nodeAt h x with
  | some nd => kindValue? nd == some (.fin 1)
  | none => false

/-- SXElement::isMinusOne. -/
def isMinusOneN (h : SXHeap) (x : ℕ) : Bool :=
  match nodeAt h x with
  | some nd => kindValue? nd == some (.fin (-1))
  | none => false

/-- SXElement::isOp: the node is an operation node carrying this opcode. -/
def isOpN (h : SXHeap) (x : ℕ) (op : Op) : Bool :=
  match nodeAt h x with
  | some (.unarySX o _) => o == op
  | some (.binarySX o _ _) => o == op
  | _ => false

/-- SXElement::getDep. -/
def getDepN (h : SXHeap) (x : ℕ) (ch : ℕ) : ℕ :=
  match nodeAt h x with
  | some (.unarySX _ d) => d
  | some (.binarySX _ a b) => if ch = 0 then a else b
  | _ => 0

/-- The fixed structural-comparison depth SXNode::eq_depth_.
Modelled from the spec: a fixed comparison-depth constant (the defining
translation unit is not among the selected sources); its default is one. -/
def eqDepth : ℕ := 1

/-- SXElement::zz_is_equal: identity, or, with positive remaining depth,
equal opcode and structurally equal children one level shallower.
Constants and symbols are equal only by identity (hash-consing makes
identity the canonical test for them). -/
def isEqualN (h : SXHeap) : ℕ → ℕ → ℕ → Bool
  | 0, x, y => x == y
  | d + 1, x, y =>
    x == y ||
      match nodeAt h x with
      | some (.unarySX o a) =>
        (match nodeAt h y with
         | some (.unarySX p b) => o == p && isEqualN h d a b
         | _ => false)
      | some (.binarySX o a b) =>
        (match nodeAt h y with
         | some (.binarySX p c e) => o == p && isEqualN h d a c && isEqualN h d b e
         | _ => false)
      | _ => false

/-- Allocation of a fresh node at the end of the node store. -/
def allocNode (h : SXHeap) (nd : NodeData) : ℕ × SXHeap :=
  (h.nodes.length, ⟨h.nodes ++ [nd], h.intCache, h.realCache⟩)

/-- Modelled from the spec: IntegerSX::create (constant_sx.hpp is not among
the selected sources).  The process-wide ConstantCache guarantees that
structurally identical integer literals share one node: an existing cache
entry is returned, otherwise a fresh node is allocated and cached. -/
def integerCreate (h : SXHeap) (i : ℤ) : ℕ × SXHeap :=
  match h.intCache.lookup i with
  | some id => (id, h)
  | none =>
    (h.nodes.length, ⟨h.nodes ++ [.integerSX i], (i, h.nodes.length) :: h.intCache, h.realCache⟩)

/-- Modelled from the spec: RealtypeSX::create, the cached constructor for
non-integer real constants. -/
def realtypeCreate (h : SXHeap) (q : ℚ) : ℕ × SXHeap :=
  match h.realCache.lookup q with
  | some id => (id, h)
  | none =>
    (h.nodes.length, ⟨h.nodes ++ [.realtypeSX q], h.intCache, (q, h.nodes.length) :: h.realCache⟩)

/-- SXElement::SXElement(double): integer-valued doubles dispatch to the
0, 1, 2, -1 singletons or to the cached IntegerSX constructor; NaN and the
infinities dispatch to their singletons; every other value goes to the
cached RealtypeSX constructor. -/
def sxFromDouble (v : Dbl) (h : SXHeap) : ℕ × SXHeap :=
  match v with
  | .fin q =>
    let intval : ℤ := truncQ q
    if q - intval = 0 then
      if intval = 0 then (zeroId, h)
      else if intval = 1 then (oneId, h)
      else if intval = 2 then (twoId, h)
      else if intval = -1 then (minusOneId, h)
      else integerCreate h intval
    else realtypeCreate h q
  | .nan => (nanId, h)
  | .inf => (infId, h)
  | .minusInf => (minusInfId, h)

/-- Evaluation of a unary operation on doubles, used for constant folding.
Modelled from the spec: when both operands of an operation being built are
constant the folded value is computed directly (casadi_math.hpp is not
among the selected sources). -/
def evalUnOp : Op → Dbl → Dbl
  | .neg, v => dblNeg v
  | .sq, v => dblMul v v
  | .sqrtOp, v => dblSqrt v
  | .invOp, v => dblDiv (.fin 1) v
  | _, _ => .nan

/-- Evaluation of a binary operation on doubles, used for constant folding. -/
def evalBinOp : Op → Dbl → Dbl → Dbl
  | .add, a, b => dblAdd a b
  | .sub, a, b => dblSub a b
  | .mul, a, b => dblMul a b
  | .div, a, b => dblDiv a b
  | _, _, _ => .nan

/-- Modelled from the spec: UnarySX::create (unary_sx.hpp is not among the
selected sources).  With on-the-fly simplification enabled a constant
operand is folded to a constant built through the literal constructor;
otherwise exactly one fresh node is allocated.  The global switch forces
unconditional allocation. -/
def unaryCreate (otf : Bool) (op : Op) (x : ℕ) (h : SXHeap) : ℕ × SXHeap :=
  if otf && isConstantN h x then sxFromDouble (evalUnOp op (getValueN h x)) h
  else allocNode h (.unarySX op x)

/-- Modelled from the spec: BinarySX::create (binary_sx.hpp is not among
the selected sources).  With on-the-fly simplification enabled two
constant operands are folded; the global switch forces unconditional
allocation. -/
def binaryCreate (otf : Bool) (op : Op) (x y : ℕ) (h : SXHeap) : ℕ × SXHeap :=
  if otf && isConstantN h x && isConstantN h y then
    sxFromDouble (evalBinOp op (getValueN h x) (getValueN h y)) h
  else allocNode h (.binarySX op x y)

/-- SXElement::operator-: collapse a double negation, negate the literal
constants 0, 1, -1 through the literal constructor, otherwise build an
OP_NEG node. -/
def negSX (otf : Bool) (x : ℕ) (h : SXHeap) : ℕ × SXHeap :=
  if isOpN h x .neg then (getDepN h x 0, h)
  else if isZeroN h x then sxFromDouble (.fin 0) h
  else if isMinusOneN h x then sxFromDouble (.fin 1) h
  else if isOneN h x then sxFromDouble (.fin (-1)) h
  else unaryCreate otf .neg x h

/-- SXElement::inv: collapse a double reciprocal, otherwise build an
OP_INV node. -/
def invSX (otf : Bool) (x : ℕ) (h : SXHeap) : ℕ × SXHeap :=
  if isOpN h x .invOp then (getDepN h x 0, h)
  else unaryCreate otf .invOp x h

/-- SXElement::sq: the square of a square root is its argument, the square
of a negation is the square of its argument, otherwise an OP_SQ node. -/
def sqSX (otf : Bool) : ℕ → ℕ → SXHeap → Option (ℕ × SXHeap)
  | 0, _, _ => none
  | f + 1, x, h =>
    if isOpN h x .sqrtOp then some (getDepN h x 0, h)
    else if isOpN h x .neg then sqSX otf f (getDepN h x 0) h
    else some (unaryCreate otf .sq x h)

/-- SXElement::isDoubled: an addition whose two children are structurally
equal up to the fixed depth. -/
def isDoubledN (h : SXHeap) (x : ℕ) : Bool :=
  isOpN h x .add && isEqualN h eqDepth (getDepN h x 0) (getDepN h x 1)

mutual

/-- SXElement::zz_plus.  The otf flag models the global switch
CasadiOptions::simplification_on_the_fly; when it is off the operation
node is built unconditionally. -/
def zz_plus (otf : Bool) : ℕ → ℕ → ℕ → SXHeap → Option (ℕ × SXHeap)
  | 0, _, _, _ => none
  | f + 1, x, y, h =>
    if !otf then some (binaryCreate otf .add x y h)
    else if isZeroN h x then some (y, h)
    else if isZeroN h y then some (x, h)
    else if isOpN h y .neg then
      -- x + (-y) -> x - y
      let r := negSX otf y h
      zz_minus otf f x r.1 r.2
    else if isOpN h x .neg then
      -- (-x) + y -> y - x
      zz_minus otf f y (getDepN h x 0) h
    else if isOpN h x .mul && isOpN h y .mul &&
        isConstantN h (getDepN h x 0) && (getValueN h (getDepN h x 0) == .fin (1/2)) &&
        isConstantN h (getDepN h y 0) && (getValueN h (getDepN h y 0) == .fin (1/2)) &&
        isEqualN h eqDepth (getDepN h y 1) (getDepN h x 1) then
      -- 0.5x + 0.5x = x
      some (getDepN h x 1, h)
    else if isOpN h x .div && isOpN h y .div &&
        isConstantN h (getDepN h x 1) && (getValueN h (getDepN h x 1) == .fin 2) &&
        isConstantN h (getDepN h y 1) && (getValueN h (getDepN h y 1) == .fin 2) &&
        isEqualN h eqDepth (getDepN h y 0) (getDepN h x 0) then
      -- x/2 + x/2 = x
      some (getDepN h x 0, h)
    else if isOpN h x .sub && isEqualN h eqDepth (getDepN h x 1) y then
      some (getDepN h x 0, h)
    else if isOpN h y .sub && isEqualN h eqDepth x (getDepN h y 1) then
      some (getDepN h y 0, h)
    else if isOpN h x .sq && isOpN h y .sq &&
        ((isOpN h (getDepN h x 0) .sin && isOpN h (getDepN h y 0) .cos) ||
         (isOpN h (getDepN h x 0) .cos && isOpN h (getDepN h y 0) .sin)) &&
        isEqualN h eqDepth (getDepN h (getDepN h x 0) 0) (getDepN h (getDepN h y 0) 0) then
      -- sin^2 + cos^2 -> 1
      some (sxFromDouble (.fin 1) h)
    else some (binaryCreate otf .add x y h)

/-- SXElement::zz_minus. -/
def zz_minus (otf : Bool) : ℕ → ℕ → ℕ → SXHeap → Option (ℕ × SXHeap)
  | 0, _, _, _ => none
  | f + 1, x, y, h =>
    if !otf then some (binaryCreate otf .sub x y h)
    else if isZeroN h y then some (x, h)
    else if isZeroN h x then some (negSX otf y h)
    else if isEqualN h eqDepth x y then some (sxFromDouble (.fin 0) h)
    else if isOpN h y .neg then
      -- x - (-y) -> x + y
      zz_plus otf f x (getDepN h y 0) h
    else if isOpN h x .add && isEqualN h eqDepth (getDepN h x 1) y then
      some (getDepN h x 0, h)
    else if isOpN h x .add && isEqualN h eqDepth (getDepN h x 0) y then
      some (getDepN h x 1, h)
    else if isOpN h y .add && isEqualN h eqDepth x (getDepN h y 1) then
      some (negSX otf (getDepN h y 0) h)
    else if isOpN h y .add && isEqualN h eqDepth x (getDepN h y 0) then
      some (negSX otf (getDepN h y 1) h)
    else if isOpN h x .neg then
      match zz_plus otf f (getDepN h x 0) y h with
      | some r => some (negSX otf r.1 r.2)
      | none => none
    else some (binaryCreate otf .sub x y h)

/-- SXElement::zz_times. -/
def zz_times (otf : Bool) : ℕ → ℕ → ℕ → SXHeap → Option (ℕ × SXHeap)
  | 0, _, _, _ => none
  | f + 1, x, y, h =>
    if !otf then some (binaryCreate otf .mul x y h)
    else if isEqualN h eqDepth y x then sqSX otf f x h
    else if !isConstantN h x && isConstantN h y then zz_times otf f y x h
    else if isZeroN h x || isZeroN h y then some (sxFromDouble (.fin 0) h)
    else if isOneN h x then some (y, h)
    else if isOneN h y then some (x, h)
    else if isMinusOneN h y then some (negSX otf x h)
    else if isMinusOneN h x then some (negSX otf y h)
    else if isOpN h y .invOp then
      let r := invSX otf y h
      zz_rdivide otf f x r.1 r.2
    else if isOpN h x .invOp then
      let r := invSX otf x h
      zz_rdivide otf f y r.1 r.2
    else if isConstantN h x && isOpN h y .mul && isConstantN h (getDepN h y 0) &&
        (dblMul (getValueN h x) (getValueN h (getDepN h y 0)) == Dbl.fin 1) then
      -- 5*(0.2*x) = x
      some (getDepN h y 1, h)
    else if isConstantN h x && isOpN h y .div && isConstantN h (getDepN h y 1) &&
        (getValueN h x == getValueN h (getDepN h y 1)) then
      -- 5*(x/5) = x
      some (getDepN h y 0, h)
    else if isOpN h x .div && isEqualN h eqDepth (getDepN h x 1) y then
      some (getDepN h x 0, h)
    else if isOpN h y .div && isEqualN h eqDepth (getDepN h y 1) x then
      some (getDepN h y 0, h)
    else if isOpN h x .neg then
      match zz_times otf f (getDepN h x 0) y h with
      | some r => some (negSX otf r.1 r.2)
      | none => none
    else if isOpN h y .neg then
      match zz_times otf f x (getDepN h y 0) h with
      | some r => some (negSX otf r.1 r.2)
      | none => none
    else some (binaryCreate otf .mul x y h)

/-- SXElement::zz_rdivide, dividing x by y. -/
def zz_rdivide (otf : Bool) : ℕ → ℕ → ℕ → SXHeap → Option (ℕ × SXHeap)
  | 0, _, _, _ => none
  | f + 1, x, y, h =>
    if !otf then some (binaryCreate otf .div x y h)
    else if isZeroN h y then some (nanId, h)
    else if isZeroN h x then some (sxFromDouble (.fin 0) h)
    else if isOneN h y then some (x, h)
    else if isMinusOneN h y then some (negSX otf x h)
    else if isEqualN h eqDepth x y then some (sxFromDouble (.fin 1) h)
    else if isDoubledN h x && isEqualN h 0 y twoId then some (getDepN h x 0, h)
    else if isOpN h x .mul && isEqualN h eqDepth y (getDepN h x 0) then
      some (getDepN h x 1, h)
    else if isOpN h x .mul && isEqualN h eqDepth y (getDepN h x 1) then
      some (getDepN h x 0, h)
    else if isOneN h x then some (invSX otf y h)
    else if isOpN h y .invOp then
      let r := invSX otf y h
      zz_times otf f x r.1 r.2
    else if isDoubledN h x && isDoubledN h y then
      zz_rdivide otf f (getDepN h x 0) (getDepN h y 0) h
    else if isConstantN h y && isOpN h x .div && isConstantN h (getDepN h x 1) &&
        (dblMul (getValueN h y) (getValueN h (getDepN h x 1)) == Dbl.fin 1) then
      -- (x/5)/0.2
      some (getDepN h x 0, h)
    else if isOpN h y .mul && isEqualN h eqDepth (getDepN h y 1) x then
      -- x/(2*x) = 1/2
      some (binaryCreate otf .div oneId (getDepN h y 0) h)
    else if isOpN h x .neg && isEqualN h eqDepth (getDepN h x 0) y then
      -- (-x)/x = -1
      some (sxFromDouble (.fin (-1)) h)
    else if isOpN h y .neg && isEqualN h eqDepth (getDepN h y 0) x then
      -- x/(-x) = -1
      some (sxFromDouble (.fin (-1)) h)
    else if isOpN h y .neg && isOpN h x .neg && isEqualN h eqDepth (getDepN h x 0) (getDepN h y 0) then
      -- (-x)/(-x) = 1
      some (sxFromDouble (.fin 1) h)
    else if isOpN h x .div && isEqualN h eqDepth y (getDepN h x 0) then
      some (invSX otf (getDepN h x 1) h)
    else if isOpN h x .neg then
      match zz_rdivide otf f (getDepN h x 0) y h with
      | some r => some (negSX otf r.1 r.2)
      | none => none
    else if isOpN h y .neg then
      match zz_rdivide otf f x (getDepN h y 0) h with
      | some r => some (negSX otf r.1 r.2)
      | none => none
    else some (binaryCreate otf .div x y h)

end

/-- SXElement::__nonzero__: truth value of a constant node, a TypeError
otherwise. -/
def sxNonzero (h : SXHeap) (x : ℕ) : Except String Bool :=
  if isConstantN h x then .ok (!(isZeroN h x))
  else .error "Cannot compute the truth value of a CasADi SXElement symbolic expression."

/-- Consistency of a node with the hash-consing discipline: a constant node
holding the value 0, 1 or -1 can only be the corresponding singleton. -/
def nodeOkB (i : ℕ) (nd : NodeData) : Bool :=
  (kindValue? nd != some (.fin 0) || i == zeroId) &&
  (kindValue? nd != some (.fin 1) || i == oneId) &&
  (kindValue? nd != some (.fin (-1)) || i == minusOneId)

/-- Heap wellformedness: the singleton slots hold the casadi_limits nodes,
zero, one and minus-one valued constants are unique, and the constant
caches map each key to a live node of the right kind holding that key. -/
def SXHeap.wfB (h : SXHeap) : Bool :=
  (h.nodes.take 7 == initNodes) &&
  (h.nodes.enum.all fun p => nodeOkB p.1 p.2) &&
  (h.intCache.all fun p => h.nodes[p.2]? == some (.integerSX p.1)) &&
  (h.realCache.all fun p => h.nodes[p.2]? == some (.realtypeSX p.1))

/-- A heap holding the singletons and one symbol, used to instantiate
hypotheses of the theorems below on concrete inputs. -/
def exHeap : SXHeap := ⟨initNodes ++ [.symbolicSX "x"], [(2, twoId)], []⟩

/-! ### Heap wellformedness consequences -/

lemma lookup_mem {α β : Type _} [BEq α] [LawfulBEq α] {l : List (α × β)} {a : α} {b : β}
    (hl : l.lookup a = some b) : (a, b) ∈ l := by
  induction l with
  | nil => simp [List.lookup] at hl
  | cons p t ih =>
    obtain ⟨k, v⟩ := p
    by_cases hk : a = k
    · subst hk
      simp only [List.lookup, beq_self_eq_true] at hl
      rw [Option.some.injEq] at hl
      subst hl
      exact List.mem_cons_self _ _
    · have hb : (a == k) = false := beq_eq_false_iff_ne.2 hk
      simp only [List.lookup, hb] at hl
      exact List.mem_cons_of_mem _ (ih hl)

lemma wf_take7 {h : SXHeap} (hw : h.wfB = true) : h.nodes.take 7 = initNodes := by
  simp only [SXHeap.wfB, Bool.and_eq_true, beq_iff_eq] at hw
  exact hw.1.1.1

lemma wf_nodeOk {h : SXHeap} (hw : h.wfB = true) {x : ℕ} {nd : NodeData}
    (hx : nodeAt h x = some nd) : nodeOkB x nd = true := by
  simp only [SXHeap.wfB, Bool.and_eq_true, List.all_eq_true] at hw
  exact hw.1.1.2 (x, nd) (List.mem_enum_iff_getElem?.2 hx)

lemma wf_intCache {h : SXHeap} (hw : h.wfB = true) {i : ℤ} {id : ℕ}
    (hl : h.intCache.lookup i = some id) : h.nodes[id]? = some (.integerSX i) := by
  simp only [SXHeap.wfB, Bool.and_eq_true, List.all_eq_true] at hw
  have := hw.1.2 (i, id) (lookup_mem hl)
  simpa using this

lemma wf_realCache {h : SXHeap} (hw : h.wfB = true) {q : ℚ} {id : ℕ}
    (hl : h.realCache.lookup q = some id) : h.nodes[id]? = some (.realtypeSX q) := by
  simp only [SXHeap.wfB, Bool.and_eq_true, List.all_eq_true] at hw
  have := hw.2 (q, id) (lookup_mem hl)
  simpa using this

lemma wf_nodeAt_lt7 {h : SXHeap} (hw : h.wfB = true) {k : ℕ} (hk : k < 7) :
    nodeAt h k = initNodes[k]? := by
  have := wf_take7 hw
  calc nodeAt h k = (h.nodes.take 7)[k]? := by
        simp [nodeAt, List.getElem?_take, hk]
    _ = initNodes[k]? := by rw [this]

lemma wf_node_zero {h : SXHeap} (hw : h.wfB = true) : nodeAt h zeroId = some .zeroSX :=
  wf_nodeAt_lt7 hw (by norm_num [zeroId])

lemma wf_node_one {h : SXHeap} (hw : h.wfB = true) : nodeAt h oneId = some .oneSX :=
  wf_nodeAt_lt7 hw (by norm_num [oneId])

lemma wf_node_two {h : SXHeap} (hw : h.wfB = true) : nodeAt h twoId = some (.integerSX 2) :=
  wf_nodeAt_lt7 hw (by norm_num [twoId])

lemma wf_node_nan {h : SXHeap} (hw : h.wfB = true) : nodeAt h nanId = some .nanSX :=
  wf_nodeAt_lt7 hw (by norm_num [nanId])

/-- Under wellformedness a zero-valued constant node is the zero singleton. -/
lemma wf_isZero_eq {h : SXHeap} (hw : h.wfB = true) {x : ℕ}
    (hz : isZeroN h x = true) : x = zeroId := by
  unfold isZeroN at hz
  rcases hnd : nodeAt h x with _ | nd
  · rw [hnd] at hz; exact absurd hz (by simp)
  · rw [hnd] at hz
    have hok := wf_nodeOk hw hnd
    simp only [nodeOkB, Bool.and_eq_true, Bool.or_eq_true, bne_iff_ne, ne_eq, beq_iff_eq] at hok hz
    rcases hok.1.1 with hc | hc
    · exact absurd hz hc
    · exact hc

/-- Under wellformedness a one-valued constant node is the one singleton. -/
lemma wf_isOne_eq {h : SXHeap} (hw : h.wfB = true) {x : ℕ}
    (hz : isOneN h x = true) : x = oneId := by
  unfold isOneN at hz
  rcases hnd : nodeAt h x with _ | nd
  · rw [hnd] at hz; exact absurd hz (by simp)
  · rw [hnd] at hz
    have hok := wf_nodeOk hw hnd
    simp only [nodeOkB, Bool.and_eq_true, Bool.or_eq_true, bne_iff_ne, ne_eq, beq_iff_eq] at hok hz
    rcases hok.1.2 with hc | hc
    · exact absurd hz hc
    · exact hc

/-- A node with no dependencies (constant or symbol) is structurally equal
only to itself: the comparison degenerates to identity. -/
def hasDepNd : NodeData → Bool
  | .unarySX _ _ => true
  | .binarySX _ _ _ => true
  | _ => false

lemma isEqualN_leaf_left {h : SXHeap} {x : ℕ} {nd : NodeData}
    (hx : nodeAt h x = some nd) (hleaf : hasDepNd nd = false) (d y : ℕ) :
    isEqualN h d x y = (x == y) := by
  cases d with
  | zero => rfl
  | succ d =>
    unfold isEqualN
    rw [hx]
    cases nd <;> simp_all [hasDepNd]

lemma isEqualN_leaf_right {h : SXHeap} {y : ℕ} {nd : NodeData}
    (hy : nodeAt h y = some nd) (hleaf : hasDepNd nd = false) (d x : ℕ) :
    isEqualN h d x y = (x == y) := by
  cases d with
  | zero => rfl
  | succ d =>
    unfold isEqualN
    rcases hx : nodeAt h x with _ | ndx
    · simp
    · cases ndx <;> cases nd <;> simp_all [hasDepNd]

lemma isEqualN_refl (h : SXHeap) (d x : ℕ) : isEqualN h d x x = true := by
  cases d <;> simp [isEqualN]

/-! ### Computation of the literal constructor on the special values -/

lemma truncQ_intCast (n : ℤ) : truncQ (n : ℚ) = n := by
  unfold truncQ
  split <;> simp

lemma sxFromDouble_intCast (h : SXHeap) (n : ℤ) :
    sxFromDouble (.fin (n : ℚ)) h =
      if n = 0 then (zeroId, h)
      else if n = 1 then (oneId, h)
      else if n = 2 then (twoId, h)
      else if n = -1 then (minusOneId, h)
      else integerCreate h n := by
  simp [sxFromDouble, truncQ_intCast]

lemma sxFromDouble_zero (h : SXHeap) : sxFromDouble (.fin 0) h = (zeroId, h) := by
  have := sxFromDouble_intCast h 0
  norm_num at this
  exact this

lemma sxFromDouble_one (h : SXHeap) : sxFromDouble (.fin 1) h = (oneId, h) := by
  have := sxFromDouble_intCast h 1
  norm_num at this
  exact this

lemma sxFromDouble_minus_one (h : SXHeap) : sxFromDouble (.fin (-1)) h = (minusOneId, h) := by
  have := sxFromDouble_intCast h (-1)
  norm_num at this
  exact this

lemma sxFromDouble_two (h : SXHeap) : sxFromDouble (.fin 2) h = (twoId, h) := by
  have := sxFromDouble_intCast h 2
  norm_num at this
  exact this

lemma integerCreate_twice (h : SXHeap) (i : ℤ) :
    (integerCreate (integerCreate h i).2 i).1 = (integerCreate h i).1 := by
  unfold integerCreate
  rcases hl : h.intCache.lookup i with _ | id <;> simp [hl, List.lookup]

lemma integerCreate_cache (h : SXHeap) (i : ℤ) :
    (integerCreate h i).2.intCache.lookup i = some (integerCreate h i).1 := by
  unfold integerCreate
  rcases hl : h.intCache.lookup i with _ | id <;> simp [hl, List.lookup]

lemma integerCreate_node {h : SXHeap} (hw : h.wfB = true) (i : ℤ) :
    (integerCreate h i).2.nodes[(integerCreate h i).1]? = some (.integerSX i) := by
  unfold integerCreate
  rcases hl : h.intCache.lookup i with _ | id
  · simpa [hl] using List.getElem?_concat_length h.nodes (.integerSX i)
  · simpa [hl] using wf_intCache hw hl

lemma realtypeCreate_twice (h : SXHeap) (q : ℚ) :
    (realtypeCreate (realtypeCreate h q).2 q).1 = (realtypeCreate h q).1 := by
  unfold realtypeCreate
  rcases hl : h.realCache.lookup q with _ | id <;> simp [hl, List.lookup]

lemma realtypeCreate_cache (h : SXHeap) (q : ℚ) :
    (realtypeCreate h q).2.realCache.lookup q = some (realtypeCreate h q).1 := by
  unfold realtypeCreate
  rcases hl : h.realCache.lookup q with _ | id <;> simp [hl, List.lookup]

lemma realtypeCreate_node {h : SXHeap} (hw : h.wfB = true) (q : ℚ) :
    (realtypeCreate h q).2.nodes[(realtypeCreate h q).1]? = some (.realtypeSX q) := by
  unfold realtypeCreate
  rcases hl : h.realCache.lookup q with _ | id
  · simpa [hl] using List.getElem?_concat_length h.nodes (.realtypeSX q)
  · simpa [hl] using wf_realCache hw hl

/-- Claim C1: constructing a SymbolicScalar from the same numeric literal
twice returns handles to the same ExpressionNode.  For every double v, the
two constructions yield the same handle; integer-valued 0, 1, 2, -1 map to
the fixed singletons, other integer values to one cached IntegerSX node,
NaN and the infinities to their singletons, and any other real to one
cached RealtypeSX node. -/
theorem c1_literal_hash_consing (v : Dbl) (h : SXHeap) (hw : h.wfB = true) :
    (sxFromDouble v (sxFromDouble v h).2).1 = (sxFromDouble v h).1 ∧
    ((v = .fin 0 → (sxFromDouble v h).1 = zeroId) ∧
     (v = .fin 1 → (sxFromDouble v h).1 = oneId) ∧
     (v = .fin 2 → (sxFromDouble v h).1 = twoId) ∧
     (v = .fin (-1) → (sxFromDouble v h).1 = minusOneId) ∧
     (v = .nan → (sxFromDouble v h).1 = nanId) ∧
     (v = .inf → (sxFromDouble v h).1 = infId) ∧
     (v = .minusInf → (sxFromDouble v h).1 = minusInfId)) ∧
    (∀ q : ℚ, v = .fin q → q - (truncQ q : ℚ) = 0 →
      truncQ q ≠ 0 → truncQ q ≠ 1 → truncQ q ≠ 2 → truncQ q ≠ -1 →
      (sxFromDouble v h).2.intCache.lookup (truncQ q) = some (sxFromDouble v h).1 ∧
      (sxFromDouble v h).2.nodes[(sxFromDouble v h).1]? = some (.integerSX (truncQ q))) ∧
    (∀ q : ℚ, v = .fin q → q - (truncQ q : ℚ) ≠ 0 →
      (sxFromDouble v h).2.realCache.lookup q = some (sxFromDouble v h).1 ∧
      (sxFromDouble v h).2.nodes[(sxFromDouble v h).1]? = some (.realtypeSX q)) := by
  refine ⟨?_, ⟨?_, ?_, ?_, ?_, ?_, ?_, ?_⟩, ?_, ?_⟩
  · -- identity of the two constructions
    cases v with
    | nan => rfl
    | inf => rfl
    | minusInf => rfl
    | fin q =>
      by_cases hqi : q - (truncQ q : ℚ) = 0
      · by_cases h0 : truncQ q = 0
        · have hq : q = 0 := by rw [h0] at hqi; simpa using hqi
          simp only [hq, sxFromDouble_zero]
        · by_cases h1 : truncQ q = 1
          · have hq : q = 1 := by rw [h1] at hqi; push_cast at hqi; linarith
            simp only [hq, sxFromDouble_one]
          · by_cases h2 : truncQ q = 2
            · have hq : q = 2 := by rw [h2] at hqi; push_cast at hqi; linarith
              simp only [hq, sxFromDouble_two]
            · by_cases hm : truncQ q = -1
              · have hq : q = -1 := by rw [hm] at hqi; push_cast at hqi; linarith
                simp only [hq, sxFromDouble_minus_one]
              · simp only [sxFromDouble, if_pos hqi, if_neg h0, if_neg h1, if_neg h2, if_neg hm]
                exact integerCreate_twice h (truncQ q)
      · simp only [sxFromDouble, if_neg hqi]
        exact realtypeCreate_twice h q
  · rintro rfl; rw [sxFromDouble_zero]
  · rintro rfl; rw [sxFromDouble_one]
  · rintro rfl
    have := sxFromDouble_intCast h 2
    norm_num at this
    rw [this]
  · rintro rfl; rw [sxFromDouble_minus_one]
  · rintro rfl; rfl
  · rintro rfl; rfl
  · rintro rfl; rfl
  · rintro q rfl hqi h0 h1 h2 hm
    simp only [sxFromDouble, if_pos hqi, if_neg h0, if_neg h1, if_neg h2, if_neg hm]
    exact ⟨integerCreate_cache h (truncQ q), integerCreate_node hw (truncQ q)⟩
  · rintro q rfl hqi
    simp only [sxFromDouble, if_neg hqi]
    exact ⟨realtypeCreate_cache h q, realtypeCreate_node hw q⟩

/-- Witness for C1: in the freshly initialized heap the literal 5 is
constructed twice and yields the same handle. -/
theorem c1_literal_hash_consing_witness :
    initHeap.wfB = true ∧
    (sxFromDouble (.fin 5) (sxFromDouble (.fin 5) initHeap).2).1 =
      (sxFromDouble (.fin 5) initHeap).1 :=
  ⟨by decide, (c1_literal_hash_consing (.fin 5) initHeap (by decide)).1⟩

lemma isZeroN_const {h : SXHeap} {x : ℕ} (hz : isZeroN h x = true) :
    isConstantN h x = true := by
  unfold isZeroN at hz
  unfold isConstantN
  rcases hnd : nodeAt h x with _ | nd <;> simp only [hnd] at hz ⊢
  · simp at hz
  · rcases hv : kindValue? nd with _ | v
    · simp [hv] at hz
    · simp [hv]

/-- Claim C4: truth-value conversion succeeds exactly on constant nodes,
where it returns whether the stored value differs from zero, and raises a
TypeError on every non-constant node. -/
theorem c4_truth_value (h : SXHeap) (x : ℕ) :
    (isConstantN h x = true →
      sxNonzero h x = .ok (decide (getValueN h x ≠ .fin 0))) ∧
    (isConstantN h x = false →
      sxNonzero h x =
        .error "Cannot compute the truth value of a CasADi SXElement symbolic expression.") := by
  constructor
  · intro hc
    unfold sxNonzero
    rw [if_pos hc]
    unfold isConstantN at hc
    rcases hnd : nodeAt h x with _ | nd
    · rw [hnd] at hc; simp at hc
    · rw [hnd] at hc
      rcases hv : kindValue? nd with _ | v
      · simp [hv] at hc
      · simp only [isZeroN, getValueN, hnd, hv, Option.bind_some, Option.getD_some,
          Except.ok.injEq]
        rw [decide_not]
        cases hdec : decide (v = Dbl.fin 0) with
        | true => simp_all
        | false => simp_all
  · intro hc
    unfold sxNonzero
    rw [if_neg (by simp [hc])]

/-- Witness for C4: in the example heap the constant one converts to true
and the symbol at handle 7 raises. -/
theorem c4_truth_value_witness :
    isConstantN exHeap oneId = true ∧ sxNonzero exHeap oneId = .ok true ∧
    isConstantN exHeap 7 = false ∧
    sxNonzero exHeap 7 =
      .error "Cannot compute the truth value of a CasADi SXElement symbolic expression." :=
  ⟨by decide, (c4_truth_value exHeap oneId).1 (by decide), by decide,
    (c4_truth_value exHeap 7).2 (by decide)⟩

/-- Claim C10: with on-the-fly simplification enabled, dividing any
SymbolicScalar by a constant-zero denominator does not raise: it returns
the NaN singleton with the heap unchanged, and since this zero-denominator
test is the first simplification rule of zz_rdivide, the result is NaN
(not the one singleton of the x/x rule nor the zero singleton of the 0/y
rule). -/
theorem c10_div_by_constant_zero (f x y : ℕ) (h : SXHeap)
    (hy : isZeroN h y = true) :
    zz_rdivide true (f + 1) x y h = some (nanId, h) ∧
    nanId ≠ oneId ∧ nanId ≠ zeroId := by
  refine ⟨?_, by decide, by decide⟩
  unfold zz_rdivide
  simp [hy]

/-- Witness for C10: zero divided by zero in the example heap is the NaN
singleton. -/
theorem c10_div_by_constant_zero_witness :
    isZeroN exHeap zeroId = true ∧
    zz_rdivide true 1 zeroId zeroId exHeap = some (nanId, exHeap) :=
  ⟨by decide, (c10_div_by_constant_zero 0 zeroId zeroId exHeap (by decide)).1⟩

/-- Claim C3: with the on-the-fly simplification switch enabled, adding
the zero singleton to any x returns x itself, subtracting any x from
itself returns the zero singleton, and multiplying any x by the one
singleton returns x itself; with the switch disabled, adding zero
allocates a fresh OP_ADD node distinct from x. -/
theorem c3_on_the_fly_simplification (f x : ℕ) (h : SXHeap)
    (hw : h.wfB = true) (hx : x < h.nodes.length) :
    (zz_plus true (f + 1) x zeroId h).map Prod.fst = some x ∧
    (zz_minus true (f + 1) x x h).map Prod.fst = some zeroId ∧
    (zz_times true (f + 2) x oneId h).map Prod.fst = some x ∧
    (zz_plus false (f + 1) x zeroId h =
        some (h.nodes.length,
          ⟨h.nodes ++ [.binarySX .add x zeroId], h.intCache, h.realCache⟩) ∧
      x ≠ h.nodes.length) := by
  have hz0 : isZeroN h zeroId = true := by
    unfold isZeroN; rw [wf_node_zero hw]; decide
  have ho1 : isOneN h oneId = true := by
    unfold isOneN; rw [wf_node_one hw]; decide
  have hco : isConstantN h oneId = true := by
    unfold isConstantN; rw [wf_node_one hw]; decide
  have hnz1 : isZeroN h oneId = false := by
    unfold isZeroN; rw [wf_node_one hw]; decide
  refine ⟨?_, ?_, ?_, ?_, Nat.ne_of_lt hx⟩
  · -- x + 0 is identity-equal to x
    by_cases hxz : isZeroN h x = true
    · have hx0 : x = zeroId := wf_isZero_eq hw hxz
      subst hx0
      unfold zz_plus
      simp [hxz]
    · have hxz' : isZeroN h x = false := by simpa using hxz
      unfold zz_plus
      simp [hxz', hz0]
  · -- x - x is the zero singleton
    by_cases hxz : isZeroN h x = true
    · have hx0 : x = zeroId := wf_isZero_eq hw hxz
      subst hx0
      unfold zz_minus
      simp [hxz]
    · have hxz' : isZeroN h x = false := by simpa using hxz
      unfold zz_minus
      simp [hxz', isEqualN_refl, sxFromDouble_zero]
  · -- x * 1 is identity-equal to x
    show (zz_times true (f + 1 + 1) x oneId h).map Prod.fst = some x
    by_cases hx1 : x = oneId
    · subst hx1
      unfold zz_times
      rw [if_neg (by simp)]
      rw [if_pos (isEqualN_refl h eqDepth oneId)]
      unfold sqSX
      rw [if_neg (by unfold isOpN; rw [wf_node_one hw]; decide)]
      rw [if_neg (by unfold isOpN; rw [wf_node_one hw]; decide)]
      have hv1 : getValueN h oneId = .fin 1 := by
        unfold getValueN; rw [wf_node_one hw]; decide
      simp [unaryCreate, hco, hv1, evalUnOp, dblMul, sxFromDouble_one]
    · have heq1 : isEqualN h eqDepth oneId x = false := by
        rw [isEqualN_leaf_left (wf_node_one hw) (by decide)]
        exact beq_eq_false_iff_ne.2 (Ne.symm hx1)
      by_cases hcx : isConstantN h x = true
      · by_cases hxz : isZeroN h x = true
        · have hx0 : x = zeroId := wf_isZero_eq hw hxz
          unfold zz_times
          simp [heq1, hcx, hxz, sxFromDouble_zero]
          exact hx0.symm
        · have hxz' : isZeroN h x = false := by simpa using hxz
          have hxo : isOneN h x = false := by
            cases hio : isOneN h x
            · rfl
            · exact absurd (wf_isOne_eq hw hio) hx1
          unfold zz_times
          simp [heq1, hcx, hxz', hnz1, hxo, ho1]
      · have hcx' : isConstantN h x = false := by simpa using hcx
        have heq2 : isEqualN h eqDepth x oneId = false := by
          rw [isEqualN_leaf_right (wf_node_one hw) (by decide)]
          exact beq_eq_false_iff_ne.2 hx1
        have hxz : isZeroN h x = false := by
          cases hz : isZeroN h x
          · rfl
          · rw [isZeroN_const hz] at hcx'; exact absurd hcx' (by simp)
        unfold zz_times
        rw [if_neg (by simp)]
        rw [if_neg (by simp [heq1])]
        rw [if_pos (by simp [hcx', hco])]
        unfold zz_times
        simp [heq2, hco, hnz1, hxz, ho1]
  · -- switch off: a fresh OP_ADD node distinct from x
    unfold zz_plus
    simp [binaryCreate, allocNode]

/-- Witness for C3: the symbol at handle 7 of the example heap times the
one singleton is the symbol itself. -/
theorem c3_on_the_fly_simplification_witness :
    exHeap.wfB = true ∧ 7 < exHeap.nodes.length ∧
    (zz_times true 2 7 oneId exHeap).map Prod.fst = some 7 :=
  ⟨by decide, by decide,
    (c3_on_the_fly_simplification 0 7 exHeap (by decide) (by decide)).2.2.1⟩

/-! ## Generic sparse matrices

Embedding of the Matrix data model used by matrix_tools.hpp: a sparsity
pattern in compressed column storage (column pointers and row indices)
paired with one data entry per structural nonzero, in column-major
nonzero order.  The field names follow the source accessors. -/

structure Mat (α : Type) where
  size1 : ℕ
  size2 : ℕ
  colind : List ℕ
  row : List ℕ
  data : List α
deriving DecidableEq, Repr

variable {α : Type}

/-- Column-pointer access colind[j]. -/
def Mat.ci (M : Mat α) (j : ℕ) : ℕ := M.colind.getD j 0

/-- The row indices of column j. -/
def Mat.colSlice (M : Mat α) (j : ℕ) : List ℕ :=
  (M.row.drop (M.ci j)).take (M.ci (j + 1) - M.ci j)

/-- The data entries of column j. -/
def Mat.dataSlice (M : Mat α) (j : ℕ) : List α :=
  (M.data.drop (M.ci j)).take (M.ci (j + 1) - M.ci j)

/-- Wellformedness of the compressed column storage: the column pointer
list has one entry per column plus one, starts at zero, is monotone and
ends at the nonzero count; data and row lists have equal length; the rows
of each column are strictly increasing and within the row dimension. -/
def Mat.WF (M : Mat α) : Prop :=
  M.colind.length = M.size2 + 1 ∧
  M.ci 0 = 0 ∧
  (∀ j, j < M.size2 → M.ci j ≤ M.ci (j + 1)) ∧
  M.ci M.size2 = M.row.length ∧
  M.data.length = M.row.length ∧
  (∀ j, j < M.size2 →
    (M.colSlice j).Pairwise (· < ·) ∧ ∀ i ∈ M.colSlice j, i < M.size1)

instance (M : Mat α) : Decidable M.WF := by
  unfold Mat.WF
  infer_instance

/-- The default-constructed matrix: zero by zero, no nonzeros. -/
def emptyMat : Mat α := ⟨0, 0, [0], [], []⟩

/-- Modelled from the spec: Matrix::appendColumns (matrix.hpp is not among
the selected sources).  Horizontal concatenation appends the columns of y,
with column pointers shifted by the running nonzero count; appending to
the default-constructed empty matrix adopts the appended matrix. -/
def Mat.appendColumns (x y : Mat α) : Mat α :=
  if x.size1 = 0 ∧ x.size2 = 0 then y
  else ⟨x.size1, x.size2 + y.size2,
    x.colind ++ y.colind.tail.map (· + x.row.length),
    x.row ++ y.row, x.data ++ y.data⟩

/-- horzcat(v): append the columns of each matrix in turn. -/
def horzcat (v : List (Mat α)) : Mat α := v.foldl Mat.appendColumns emptyMat

/-- Modelled from the spec: the isMonotone offset check (std_vector_tools
is not among the selected sources); per the spec the offsets must be
non-decreasing. -/
def monotoneB : List ℕ → Bool
  | [] => true
  | [_] => true
  | a :: b :: t => decide (a ≤ b) && monotoneB (b :: t)

/-- One column group of horzsplit: the columns of v in [start, stop), with
the column pointers rebased to start at zero and the row and data ranges
copied. -/
def pieceAt (v : Mat α) (start stop : ℕ) : Mat α :=
  ⟨v.size1, stop - start,
   ((v.colind.drop start).take (stop - start + 1)).map (fun t => t - v.ci start),
   (v.row.drop (v.ci start)).take (v.ci stop - v.ci start),
   (v.data.drop (v.ci start)).take (v.ci stop - v.ci start)⟩

/-- horzsplit(v, offset): check the offset preconditions, then produce one
submatrix per offset, the interval of the last offset running to the end. -/
def horzsplit (v : Mat α) (offset : List ℕ) : Except String (List (Mat α)) :=
  if offset.length < 1 then
    .error "horzsplit: offset size must be at least one"
  else if offset.headD 0 ≠ 0 then
    .error "horzsplit: offsets must start at zero"
  else if v.size2 < offset.getLastD 0 then
    .error "horzsplit: last offset exceeds the number of cols"
  else if monotoneB offset then
    .ok ((List.range offset.length).map fun i =>
      let start := offset.getD i 0
      let stop := if i + 1 < offset.length then offset.getD (i + 1) 0 else v.size2
      pieceAt v start stop)
  else .error "horzsplit: offsets must be monotone"

/-- Column-major entry list of a matrix: (column, row, value) triples. -/
def Mat.toEnts (M : Mat α) : List (ℕ × ℕ × α) :=
  (List.range M.size2).flatMap fun j =>
    ((M.colSlice j).zip (M.dataSlice j)).map fun p => (j, p.1, p.2)

/-- Rebuild a matrix from a column-grouped entry list. -/
def ofEnts (r c : ℕ) (l : List (ℕ × ℕ × α)) : Mat α :=
  ⟨r, c,
   (List.range (c + 1)).map fun j => (l.filter fun e => decide (e.1 < j)).length,
   l.map fun e => e.2.1,
   l.map fun e => e.2.2⟩

/-- Swap of the column and row keys of one entry. -/
def swapE (e : ℕ × ℕ × α) : ℕ × ℕ × α := (e.2.1, e.1, e.2.2)

/-- Regroup an entry list by its row key, swapping keys: for each row
index in order, the entries of that row in their original column order. -/
def regroupByRow (rdim : ℕ) (l : List (ℕ × ℕ × α)) : List (ℕ × ℕ × α) :=
  (List.range rdim).flatMap fun i => (l.filter fun e => e.2.1 == i).map swapE

/-- Modelled from the spec: Matrix::T, the transpose (matrix.hpp and the
Sparsity transpose are not among the selected sources).  The entries are
regrouped by row: the transposed matrix lists, for each old row index in
order, the entries of that row in column order. -/
def transpose (M : Mat α) : Mat α :=
  ofEnts M.size2 M.size1 (regroupByRow M.size1 M.toEnts)

/-- vertcat(v): append the columns of each transposed matrix, then
transpose back. -/
def vertcat (v : List (Mat α)) : Mat α :=
  transpose (v.foldl (fun r m => r.appendColumns (transpose m)) emptyMat)

/-- vertsplit(x, offset): horzsplit the transpose, transposing each group. -/
def vertsplit (x : Mat α) (offset : List ℕ) : Except String (List (Mat α)) :=
  (horzsplit (transpose x) offset).map (List.map transpose)

/-- blocksplit(x, vert_offset, horz_offset): vertsplit into row groups,
then horzsplit every group. -/
def blocksplit (x : Mat α) (vertOffset horzOffset : List ℕ) :
    Except String (List (List (Mat α))) :=
  (vertsplit x vertOffset).bind fun rows =>
    rows.mapM fun r => horzsplit r horzOffset

/-- blockcat(v): horzcat each row group, then vertcat the groups. -/
def blockcat (v : List (List (Mat α))) : Mat α := vertcat (v.map horzcat)

/-- Claim C9: vertical concatenation is the composition
transpose after horzcat after elementwise transpose; the implementation
reuses horizontal concatenation. -/
theorem c9_vertcat_by_transpose (v : List (Mat α)) :
    vertcat v = transpose (horzcat (v.map transpose)) := by
  unfold vertcat horzcat
  rw [List.foldl_map]

/-- Claim C6: splitting raises a precondition error on every offset vector
that is empty, does not start at 0, overruns the relevant dimension, or is
non-monotone; no result list is produced. -/
theorem c6_split_offset_preconditions (M : Mat α) (O : List ℕ) :
    (O = [] ∨ O.headD 0 ≠ 0 ∨ M.size2 < O.getLastD 0 ∨ monotoneB O = false →
      ∃ e, horzsplit M O = .error e) ∧
    (O = [] ∨ O.headD 0 ≠ 0 ∨ M.size1 < O.getLastD 0 ∨ monotoneB O = false →
      ∃ e, vertsplit M O = .error e) := by
  have key : ∀ (N : Mat α), (O = [] ∨ O.headD 0 ≠ 0 ∨ N.size2 < O.getLastD 0 ∨
      monotoneB O = false) → ∃ e, horzsplit N O = .error e := by
    intro N hbad
    unfold horzsplit
    split_ifs with h1 h2 h3 h4
    · exact ⟨_, rfl⟩
    · exact ⟨_, rfl⟩
    · exact ⟨_, rfl⟩
    · exfalso
      rcases hbad with hb | hb | hb | hb
      · subst hb; simp at h1
      · exact h2 hb
      · exact h3 hb
      · rw [hb] at h4; exact Bool.false_ne_true h4
    · exact ⟨_, rfl⟩
  constructor
  · exact key M
  · intro hbad
    obtain ⟨e, he⟩ := key (transpose M) (by simpa [transpose, ofEnts] using hbad)
    exact ⟨e, by simp [vertsplit, he, Except.map]⟩

/-! ### The split and concatenation round trip -/

lemma ci_mono {M : Mat α} (hwf : M.WF) {a b : ℕ} (hab : a ≤ b) (hb : b ≤ M.size2) :
    M.ci a ≤ M.ci b := by
  induction b, hab using Nat.le_induction with
  | base => exact le_rfl
  | succ n hn ih => exact le_trans (ih (by omega)) (hwf.2.2.1 n (by omega))

lemma ci_le_nnz {M : Mat α} (hwf : M.WF) {b : ℕ} (hb : b ≤ M.size2) :
    M.ci b ≤ M.row.length := by
  have := ci_mono hwf hb le_rfl
  rw [hwf.2.2.2.1] at this
  exact this

/-- The matrix formed by the first t columns of v. -/
def Pmat (v : Mat α) (t : ℕ) : Mat α :=
  ⟨v.size1, t, v.colind.take (t + 1), v.row.take (v.ci t), v.data.take (v.ci t)⟩

lemma piece_zero {v : Mat α} (hwf : v.WF) (t : ℕ) : pieceAt v 0 t = Pmat v t := by
  unfold pieceAt Pmat
  rw [hwf.2.1]
  simp

lemma append_P_piece {v : Mat α} (hwf : v.WF) {s t : ℕ} (hst : s ≤ t) (ht : t ≤ v.size2) :
    Mat.appendColumns (Pmat v s) (pieceAt v s t) = Pmat v t := by
  by_cases hE : v.size1 = 0 ∧ s = 0
  · unfold Mat.appendColumns
    rw [if_pos (show (Pmat v s).size1 = 0 ∧ (Pmat v s).size2 = 0 from ⟨hE.1, hE.2⟩)]
    rw [hE.2]
    exact piece_zero hwf t
  · have hcs : v.ci s ≤ v.ci t := ci_mono hwf hst ht
    have hnn : v.ci s ≤ v.row.length := ci_le_nnz hwf (le_trans hst ht)
    have hslen : s < v.colind.length := by rw [hwf.1]; omega
    unfold Mat.appendColumns
    rw [if_neg (show ¬((Pmat v s).size1 = 0 ∧ (Pmat v s).size2 = 0) from hE)]
    unfold Pmat pieceAt
    dsimp only
    congr 1
    · omega
    · -- the column pointers
      show v.colind.take (s + 1) ++
          ((((v.colind.drop s).take (t - s + 1)).map (fun u => u - v.ci s)).tail).map
            (· + (v.row.take (v.ci s)).length) = v.colind.take (t + 1)
      have hlen : (v.row.take (v.ci s)).length = v.ci s := by
        rw [List.length_take]; omega
      rw [hlen]
      rw [List.drop_eq_getElem_cons hslen]
      have hget : v.colind[s] = v.ci s := (List.getD_eq_getElem v.colind 0 hslen).symm
      rw [hget, List.take_succ_cons, List.map_cons, List.tail_cons]
      rw [List.map_map]
      have hcongr : ∀ u ∈ (v.colind.drop (s + 1)).take (t - s),
          ((· + v.ci s) ∘ (fun u => u - v.ci s)) u = u := by
        intro u hu
        obtain ⟨k, hk, hku⟩ := List.mem_take_iff_getElem.1 hu
        have hkb : k < (v.colind.drop (s + 1)).length := lt_of_lt_of_le hk (min_le_right _ _)
        rw [List.getElem_drop] at hku
        have hkc : s + 1 + k < v.colind.length := by
          have := hkb; rw [List.length_drop] at this; omega
        have hu' : u = v.ci (s + 1 + k) := by
          rw [← hku]; exact (List.getD_eq_getElem v.colind 0 hkc).symm
        have : v.ci s ≤ v.ci (s + 1 + k) := by
          apply ci_mono hwf (by omega)
          have : k < t - s := lt_of_lt_of_le hk (min_le_left _ _)
          omega
        simp only [Function.comp_apply]
        omega
      rw [List.map_congr_left hcongr, List.map_id']
      rw [← List.take_add]
      congr 1
      omega
    · -- the row indices
      show v.row.take (v.ci s) ++ (v.row.drop (v.ci s)).take (v.ci t - v.ci s) =
        v.row.take (v.ci t)
      rw [← List.take_add]
      congr 1
      omega
    · -- the data
      show v.data.take (v.ci s) ++ (v.data.drop (v.ci s)).take (v.ci t - v.ci s) =
        v.data.take (v.ci t)
      rw [← List.take_add]
      congr 1
      omega

/-- The column groups produced by horzsplit for boundaries s, os, with the
last group running to the end. -/
def piecesFrom (v : Mat α) : ℕ → List ℕ → List (Mat α)
  | s, [] => [pieceAt v s v.size2]
  | s, o :: os => pieceAt v s o :: piecesFrom v o os

lemma range_map_pieces (v : Mat α) (a : ℕ) (os : List ℕ) :
    (List.range (a :: os).length).map (fun i =>
      pieceAt v ((a :: os).getD i 0)
        (if i + 1 < (a :: os).length then (a :: os).getD (i + 1) 0 else v.size2)) =
      piecesFrom v a os := by
  induction os generalizing a with
  | nil => simp [piecesFrom, List.range_succ]
  | cons b os ih =>
    show (List.range ((os.length + 1) + 1)).map _ = _
    rw [List.range_succ_eq_map, List.map_cons, List.map_map]
    unfold piecesFrom
    congr 1
    · simp
    · rw [← ih b]
      apply List.map_congr_left
      intro i _
      simp only [Function.comp_apply, Nat.succ_eq_add_one, List.getD_cons_succ,
        List.length_cons]
      congr 1
      split_ifs with h1 h2 <;> first | rfl | omega

lemma monotoneB_le_getLastD {l : List ℕ} (hm : monotoneB l = true) :
    ∀ x ∈ l, x ≤ l.getLastD 0 := by
  induction l with
  | nil => intro x hx; simp at hx
  | cons a t ih =>
    intro x hx
    cases t with
    | nil =>
      rw [List.mem_singleton] at hx
      subst hx
      simp
    | cons b t2 =>
      unfold monotoneB at hm
      rw [Bool.and_eq_true, decide_eq_true_eq] at hm
      rw [List.getLastD_cons]
      rcases List.mem_cons.1 hx with rfl | hx2
      · exact le_trans hm.1 (ih hm.2 b (List.mem_cons_self _ _))
      · exact ih hm.2 x hx2

lemma monotoneB_tail {a : ℕ} {l : List ℕ} (hm : monotoneB (a :: l) = true) :
    monotoneB l = true := by
  cases l with
  | nil => rfl
  | cons b t =>
    unfold monotoneB at hm
    rw [Bool.and_eq_true] at hm
    exact hm.2

lemma fold_pieces {v : Mat α} (hwf : v.WF) :
    ∀ (os : List ℕ) (s : ℕ), monotoneB (s :: os) = true →
      (s :: os).getLastD 0 ≤ v.size2 →
      List.foldl Mat.appendColumns (Pmat v s) (piecesFrom v s os) = Pmat v v.size2 := by
  intro os
  induction os with
  | nil =>
    intro s _ hl
    simp only [List.getLastD_cons, List.getLastD_nil] at hl
    unfold piecesFrom
    rw [List.foldl_cons, List.foldl_nil]
    exact append_P_piece hwf hl le_rfl
  | cons o os ih =>
    intro s hm hl
    have hso : s ≤ o := by
      unfold monotoneB at hm
      rw [Bool.and_eq_true, decide_eq_true_eq] at hm
      exact hm.1
    have hlast : (o :: os).getLastD 0 ≤ v.size2 := by
      rw [List.getLastD_cons] at hl
      cases os with
      | nil => simpa using hl
      | cons c t => simpa [List.getLastD_cons] using hl
    have hov : o ≤ v.size2 :=
      le_trans (monotoneB_le_getLastD (monotoneB_tail hm) o (List.mem_cons_self _ _)) hlast
    unfold piecesFrom
    rw [List.foldl_cons, append_P_piece hwf hso hov]
    exact ih o (monotoneB_tail hm) hlast

lemma Pmat_full {v : Mat α} (hwf : v.WF) : Pmat v v.size2 = v := by
  unfold Pmat
  obtain ⟨h1, h2, h3, h4, h5, h6⟩ := hwf
  rcases v with ⟨r, c, cind, rows, dat⟩
  simp only at h1 h4 h5 ⊢
  congr 1
  · rw [← h1]; exact List.take_length cind
  · rw [h4]; exact List.take_length rows
  · rw [h4, ← h5]; exact List.take_length dat

/-- The horizontal round trip: with wellformed input and valid offsets,
horzsplit succeeds and horzcat restores the matrix exactly. -/
lemma horzcat_horzsplit {v : Mat α} (hwf : v.WF) {O : List ℕ}
    (hne : O ≠ []) (hhead : O.headD 0 = 0) (hlast : O.getLastD 0 ≤ v.size2)
    (hmon : monotoneB O = true) :
    (horzsplit v O).map horzcat = .ok v := by
  rcases O with _ | ⟨a, os⟩
  · exact absurd rfl hne
  · have ha : a = 0 := by simpa using hhead
    subst ha
    unfold horzsplit
    rw [if_neg (by simp), if_neg (by simp), if_neg (by omega), if_pos hmon]
    rw [Except.map]
    congr 1
    rw [range_map_pieces]
    show horzcat (piecesFrom v 0 os) = v
    unfold horzcat
    have hfirst : ∀ (p : Mat α) (rest : List (Mat α)),
        List.foldl Mat.appendColumns emptyMat (p :: rest) =
          List.foldl Mat.appendColumns p rest := by
      intro p rest
      rw [List.foldl_cons]
      congr 1
    cases os with
    | nil =>
      unfold piecesFrom
      rw [hfirst, List.foldl_nil, piece_zero hwf]
      exact Pmat_full hwf
    | cons o os2 =>
      unfold piecesFrom
      rw [hfirst, piece_zero hwf]
      rw [fold_pieces hwf os2 o (monotoneB_tail hmon)
        (by rw [List.getLastD_cons] at hlast; exact hlast)]
      exact Pmat_full hwf

/-! ### Entry lists, ordering, and the transpose involution -/

/-- Strict column-major order on entries. -/
def entLT (a b : ℕ × ℕ × α) : Prop :=
  a.1 < b.1 ∨ (a.1 = b.1 ∧ a.2.1 < b.2.1)

lemma filter_split_sorted {β : Type _} {p : β → Bool} {l : List β}
    (hl : l.Pairwise fun a b => p b = true → p a = true) :
    l.filter p ++ l.filter (fun x => !p x) = l := by
  induction l with
  | nil => rfl
  | cons e rest ih =>
    obtain ⟨he, hrest⟩ := List.pairwise_cons.1 hl
    by_cases hp : p e = true
    · rw [List.filter_cons_of_pos hp, List.filter_cons_of_neg (by simp [hp]),
        List.cons_append, ih hrest]
    · have hall : ∀ b ∈ rest, p b = false := by
        intro b hb
        cases hpb : p b
        · rfl
        · exact absurd (he b hb hpb) hp
      have h1 : List.filter p rest = [] :=
        List.filter_eq_nil_iff.2 fun a ha => by simp [hall a ha]
      have h2 : List.filter (fun x => !p x) rest = rest :=
        List.filter_eq_self.2 fun a ha => by simp [hall a ha]
      rw [List.filter_cons_of_neg hp, List.filter_cons_of_pos (by simp [hp]), h1, h2,
        List.nil_append]

lemma take_prefix_eq {β : Type _} {l₁ l₂ l : List β} (h : l₁ ++ l₂ = l) :
    l.take l₁.length = l₁ := by
  rw [← h]; exact List.take_left l₁ l₂

lemma drop_prefix_eq {β : Type _} {l₁ l₂ l : List β} (h : l₁ ++ l₂ = l) :
    l.drop l₁.length = l₂ := by
  rw [← h]; exact List.drop_left l₁ l₂

/-- Regrouping a column-sorted, column-bounded entry list by its column
key restores the list. -/
lemma grouped_flatMap {l : List (ℕ × ℕ × α)} (hs : l.Pairwise fun a b => a.1 ≤ b.1)
    {c : ℕ} (hc : ∀ e ∈ l, e.1 < c) :
    (List.range c).flatMap (fun j => l.filter fun e => decide (e.1 = j)) = l := by
  induction l with
  | nil => simp
  | cons e rest ih =>
    have he : ∀ b ∈ rest, e.1 ≤ b.1 := (List.pairwise_cons.1 hs).1
    have hrest := (List.pairwise_cons.1 hs).2
    have hec : e.1 < c := hc e (List.mem_cons_self _ _)
    have hsplit : List.range c =
        (List.range e.1 ++ [e.1]) ++ (List.range (c - e.1 - 1)).map (e.1 + 1 + ·) := by
      have h2 : c = (e.1 + 1) + (c - e.1 - 1) := by omega
      conv_lhs => rw [h2]
      rw [List.range_add, List.range_succ]
    have hzero : ∀ (m : List (ℕ × ℕ × α)), (∀ b ∈ m, e.1 ≤ b.1) →
        (List.range e.1).flatMap (fun j => m.filter fun x => decide (x.1 = j)) = [] := by
      intro m hm
      rw [List.flatMap_eq_nil_iff]
      intro j hj
      rw [List.mem_range] at hj
      rw [List.filter_eq_nil_iff]
      intro a ha
      have := hm a ha
      simp only [decide_eq_true_eq]
      omega
    have htail : ((List.range (c - e.1 - 1)).map (e.1 + 1 + ·)).flatMap
          (fun j => (e :: rest).filter fun x => decide (x.1 = j)) =
        ((List.range (c - e.1 - 1)).map (e.1 + 1 + ·)).flatMap
          (fun j => rest.filter fun x => decide (x.1 = j)) := by
      apply List.flatMap_congr
      intro j hj
      obtain ⟨k, _, hk⟩ := List.mem_map.1 hj
      exact List.filter_cons_of_neg (by simp only [decide_eq_true_eq]; omega)
    have ihr := ih hrest (fun b hb => hc b (List.mem_cons_of_mem _ hb))
    rw [hsplit, List.flatMap_append, List.flatMap_append] at ihr ⊢
    rw [hzero (e :: rest) (by
      intro b hb
      rcases List.mem_cons.1 hb with rfl | hb2
      · exact le_rfl
      · exact he b hb2)]
    rw [hzero rest he] at ihr
    rw [htail]
    simp only [List.nil_append, List.flatMap_cons, List.flatMap_nil, List.append_nil] at ihr ⊢
    rw [List.filter_cons_of_pos (by simp)]
    rw [List.cons_append, ihr]

/-- Filtering a flatMap of single-key groups below a key bound keeps the
first groups whole. -/
lemma flatMap_filter_lt {β : Type _} {c : ℕ} {g : ℕ → List β} {key : β → ℕ}
    (hkey : ∀ j, ∀ x ∈ g j, key x = j) (j : ℕ) :
    ((List.range c).flatMap g).filter (fun x => decide (key x < j)) =
      (List.range (min j c)).flatMap g := by
  induction c with
  | zero => simp
  | succ c ih =>
    rw [List.range_succ, List.flatMap_append, List.filter_append, ih]
    simp only [List.flatMap_cons, List.flatMap_nil, List.append_nil]
    by_cases hcj : c < j
    · rw [List.filter_eq_self.2 (fun a ha => by
        simp only [decide_eq_true_eq]
        rw [hkey c a ha]; exact hcj)]
      have h1 : min j (c + 1) = c + 1 := by omega
      have h2 : min j c = c := by omega
      rw [h1, h2, List.range_succ, List.flatMap_append]
      simp
    · rw [List.filter_eq_nil_iff.2 (fun a ha => by
        simp only [decide_eq_true_eq]
        rw [hkey c a ha]; omega)]
      have h1 : min j (c + 1) = min j c := by omega
      rw [h1, List.append_nil]

/-- Filtering a flatMap of single-key groups at one key extracts that
group. -/
lemma flatMap_filter_single {β : Type _} {c : ℕ} {g : ℕ → List β} {key : β → ℕ}
    (hkey : ∀ j, ∀ x ∈ g j, key x = j) (j : ℕ) (hj : j < c) :
    ((List.range c).flatMap g).filter (fun x => decide (key x = j)) = g j := by
  induction c with
  | zero => omega
  | succ c ih =>
    rw [List.range_succ, List.flatMap_append, List.filter_append]
    simp only [List.flatMap_cons, List.flatMap_nil, List.append_nil]
    by_cases hcj : j = c
    · subst hcj
      have h1 : ((List.range j).flatMap g).filter (fun x => decide (key x = j)) = [] := by
        rw [List.filter_eq_nil_iff]
        intro a ha
        obtain ⟨k, hk, hgk⟩ := List.mem_flatMap.1 ha
        rw [List.mem_range] at hk
        simp only [decide_eq_true_eq]
        rw [hkey k a hgk]
        omega
      have h2 : (g j).filter (fun x => decide (key x = j)) = g j :=
        List.filter_eq_self.2 fun a ha => by
          simp only [decide_eq_true_eq]; exact hkey j a ha
      rw [h1, h2, List.nil_append]
    · have h2 : (g c).filter (fun x => decide (key x = j)) = [] := by
        rw [List.filter_eq_nil_iff]
        intro a ha
        simp only [decide_eq_true_eq]
        rw [hkey c a ha]
        omega
      rw [h2, List.append_nil]
      exact ih (by omega)

lemma pairwise_zip_left {β γ : Type _} {R : β → β → Prop} :
    ∀ {l₁ : List β} (l₂ : List γ), l₁.Pairwise R →
      (l₁.zip l₂).Pairwise fun p q => R p.1 q.1 := by
  intro l₁
  induction l₁ with
  | nil => intro l₂ _; simp
  | cons a t ih =>
    intro l₂ h
    cases l₂ with
    | nil => simp
    | cons b u =>
      rw [List.zip_cons_cons, List.pairwise_cons]
      refine ⟨?_, ih u (List.pairwise_cons.1 h).2⟩
      rintro ⟨p1, p2⟩ hp
      exact (List.pairwise_cons.1 h).1 p1 (List.of_mem_zip hp).1

lemma length_colSlice {M : Mat α} (hwf : M.WF) {j : ℕ} (hj : j < M.size2) :
    (M.colSlice j).length = M.ci (j + 1) - M.ci j := by
  have := ci_le_nnz hwf (show j + 1 ≤ M.size2 by omega)
  simp only [Mat.colSlice, List.length_take, List.length_drop]
  omega

lemma length_dataSlice {M : Mat α} (hwf : M.WF) {j : ℕ} (hj : j < M.size2) :
    (M.dataSlice j).length = M.ci (j + 1) - M.ci j := by
  have := ci_le_nnz hwf (show j + 1 ≤ M.size2 by omega)
  have hd := hwf.2.2.2.2.1
  simp only [Mat.dataSlice, List.length_take, List.length_drop]
  omega

lemma ofEnts_ci (r c : ℕ) (l : List (ℕ × ℕ × α)) {j : ℕ} (hj : j ≤ c) :
    (ofEnts r c l).ci j = (l.filter fun e => decide (e.1 < j)).length := by
  unfold ofEnts Mat.ci
  dsimp only
  rw [List.getD_eq_getElem _ 0 (by simpa using by omega)]
  simp

lemma sorted_slice_core {l : List (ℕ × ℕ × α)}
    (hs : l.Pairwise fun a b => a.1 ≤ b.1) (j : ℕ) :
    (l.drop (l.filter fun e => decide (e.1 < j)).length).take
        ((l.filter fun e => decide (e.1 < j + 1)).length -
          (l.filter fun e => decide (e.1 < j)).length) =
      l.filter fun e => decide (e.1 = j) := by
  have hdown : l.Pairwise fun a b =>
      (decide (b.1 < j) = true) → (decide (a.1 < j) = true) := by
    refine hs.imp ?_
    intro a b hab hb
    simp only [decide_eq_true_eq] at hb ⊢
    omega
  have hsp := filter_split_sorted hdown
  rw [drop_prefix_eq hsp]
  have hsf2 : (l.filter fun x => !decide (x.1 < j)).Pairwise fun a b => a.1 ≤ b.1 :=
    hs.filter _
  have hdown2 : (l.filter fun x => !decide (x.1 < j)).Pairwise fun a b =>
      (decide (b.1 < j + 1) = true) → (decide (a.1 < j + 1) = true) := by
    refine hsf2.imp ?_
    intro a b hab hb
    simp only [decide_eq_true_eq] at hb ⊢
    omega
  have hsp2 := filter_split_sorted hdown2
  have hc1 : (l.filter fun e => decide (e.1 < j + 1)) =
      (l.filter fun e => decide (e.1 < j)) ++
        ((l.filter fun x => !decide (x.1 < j)).filter fun e => decide (e.1 < j + 1)) := by
    conv_lhs => rw [← hsp]
    rw [List.filter_append]
    congr 1
    rw [List.filter_eq_self]
    intro a ha
    have := (List.mem_filter.1 ha).2
    simp only [decide_eq_true_eq] at this ⊢
    omega
  have hlen : (l.filter fun e => decide (e.1 < j + 1)).length -
      (l.filter fun e => decide (e.1 < j)).length =
      ((l.filter fun x => !decide (x.1 < j)).filter fun e => decide (e.1 < j + 1)).length := by
    rw [hc1, List.length_append]
    omega
  rw [hlen, take_prefix_eq hsp2, List.filter_filter]
  apply List.filter_congr
  intro x _
  by_cases h1 : x.1 < j <;> by_cases h2 : x.1 = j <;>
    simp [h1, h2] <;> omega

lemma ofEnts_colSlice {r c : ℕ} {l : List (ℕ × ℕ × α)}
    (hs : l.Pairwise fun a b => a.1 ≤ b.1) {j : ℕ} (hj : j < c) :
    (ofEnts r c l).colSlice j =
      (l.filter fun e => decide (e.1 = j)).map fun e => e.2.1 := by
  unfold Mat.colSlice
  rw [ofEnts_ci r c l (by omega), ofEnts_ci r c l (by omega)]
  have hrow : (ofEnts r c l).row = l.map fun e => e.2.1 := rfl
  rw [hrow, ← List.map_drop, ← List.map_take, sorted_slice_core hs j]

lemma ofEnts_dataSlice {r c : ℕ} {l : List (ℕ × ℕ × α)}
    (hs : l.Pairwise fun a b => a.1 ≤ b.1) {j : ℕ} (hj : j < c) :
    (ofEnts r c l).dataSlice j =
      (l.filter fun e => decide (e.1 = j)).map fun e => e.2.2 := by
  unfold Mat.dataSlice
  rw [ofEnts_ci r c l (by omega), ofEnts_ci r c l (by omega)]
  have hdat : (ofEnts r c l).data = l.map fun e => e.2.2 := rfl
  rw [hdat, ← List.map_drop, ← List.map_take, sorted_slice_core hs j]

/-- Building a matrix from a column-sorted, column-bounded entry list and
reading its entries back restores the list. -/
lemma toEnts_ofEnts {r c : ℕ} {l : List (ℕ × ℕ × α)}
    (hs : l.Pairwise fun a b => a.1 ≤ b.1) (hc : ∀ e ∈ l, e.1 < c) :
    (ofEnts r c l).toEnts = l := by
  unfold Mat.toEnts
  have hsz : (ofEnts r c l).size2 = c := rfl
  rw [hsz]
  have hcongr : ∀ j ∈ List.range c,
      (((ofEnts r c l).colSlice j).zip ((ofEnts r c l).dataSlice j)).map
          (fun p => (j, p.1, p.2)) =
        l.filter fun e => decide (e.1 = j) := by
    intro j hj
    rw [List.mem_range] at hj
    rw [ofEnts_colSlice hs hj, ofEnts_dataSlice hs hj, List.zip_map', List.map_map]
    have hid : ∀ e ∈ l.filter fun e => decide (e.1 = j),
        ((fun p : ℕ × α => (j, p.1, p.2)) ∘ fun e : ℕ × ℕ × α => (e.2.1, e.2.2)) e =
          (fun a => a) e := by
      intro e he
      have hcol := (List.mem_filter.1 he).2
      simp only [decide_eq_true_eq] at hcol
      obtain ⟨c0, r0, v0⟩ := e
      simp only [Function.comp_apply]
      simp only at hcol
      rw [hcol]
    rw [List.map_congr_left hid, List.map_id']
  rw [List.flatMap_congr hcongr]
  exact grouped_flatMap hs hc

lemma toEnts_pairwise {M : Mat α} (hwf : M.WF) : M.toEnts.Pairwise entLT := by
  unfold Mat.toEnts
  rw [List.flatMap_def, List.pairwise_flatten]
  constructor
  · intro s hs
    obtain ⟨j, hj, rfl⟩ := List.mem_map.1 hs
    rw [List.mem_range] at hj
    rw [List.pairwise_map]
    have hz := pairwise_zip_left (M.dataSlice j) ((hwf.2.2.2.2.2 j hj).1)
    refine hz.imp ?_
    intro a b h
    exact Or.inr ⟨rfl, h⟩
  · rw [List.pairwise_map]
    refine List.Pairwise.imp_of_mem ?_ (List.pairwise_lt_range _)
    intro i j hi hj hij x hx y hy
    rw [List.mem_range] at hi hj
    obtain ⟨a, _, rfl⟩ := List.mem_map.1 hx
    obtain ⟨b, _, rfl⟩ := List.mem_map.1 hy
    exact Or.inl hij

lemma toEnts_col_lt {M : Mat α} : ∀ e ∈ M.toEnts, e.1 < M.size2 := by
  intro e he
  obtain ⟨j, hj, hje⟩ := List.mem_flatMap.1 he
  rw [List.mem_range] at hj
  obtain ⟨p, _, rfl⟩ := List.mem_map.1 hje
  exact hj

lemma toEnts_row_lt {M : Mat α} (hwf : M.WF) : ∀ e ∈ M.toEnts, e.2.1 < M.size1 := by
  intro e he
  obtain ⟨j, hj, hje⟩ := List.mem_flatMap.1 he
  rw [List.mem_range] at hj
  obtain ⟨p, hp, rfl⟩ := List.mem_map.1 hje
  obtain ⟨p1, p2⟩ := p
  exact (hwf.2.2.2.2.2 j hj).2 p1 (List.of_mem_zip hp).1

lemma toEnts_colLE {M : Mat α} (hwf : M.WF) :
    M.toEnts.Pairwise fun a b => a.1 ≤ b.1 :=
  (toEnts_pairwise hwf).imp fun h => by rcases h with h | h <;> omega

lemma flatMap_filter_perm {β : Type _} (key : β → ℕ) :
    ∀ (R : ℕ) (l : List β), (∀ e ∈ l, key e < R) →
      ((List.range R).flatMap fun i => l.filter fun e => key e == i).Perm l := by
  intro R
  induction R with
  | zero =>
    intro l hb
    cases l with
    | nil => simp
    | cons e t => exact absurd (hb e (List.mem_cons_self _ _)) (by omega)
  | succ R ih =>
    intro l hb
    rw [List.range_succ, List.flatMap_append]
    simp only [List.flatMap_cons, List.flatMap_nil, List.append_nil]
    have hpre : ((List.range R).flatMap fun i => l.filter fun e => key e == i) =
        (List.range R).flatMap fun i =>
          (l.filter fun e => !(key e == R)).filter fun e => key e == i := by
      apply List.flatMap_congr
      intro i hi
      rw [List.mem_range] at hi
      rw [List.filter_filter]
      apply List.filter_congr
      intro x _
      by_cases h : key x = i
      · rw [h]
        have hne : (i == R) = false := beq_eq_false_iff_ne.2 (by omega)
        simp [hne]
      · have h1 : (key x == i) = false := beq_eq_false_iff_ne.2 h
        simp [h1]
    rw [hpre]
    have hperm := ih (l.filter fun e => !(key e == R)) (by
      intro e he
      have h2 := (List.mem_filter.1 he).2
      have h3 := hb e (List.mem_filter.1 he).1
      rw [Bool.not_eq_eq_eq_not, Bool.not_true] at h2
      have := beq_eq_false_iff_ne.1 h2
      omega)
    refine (hperm.append (List.Perm.refl (l.filter fun e => key e == R))).trans ?_
    have hstep := List.filter_append_perm (fun e => !(key e == R)) l
    have hnn : (l.filter fun x => !(!(key x == R))) = l.filter fun x => key x == R :=
      List.filter_congr fun x _ => Bool.not_not _
    rw [hnn] at hstep
    exact hstep

lemma regroupByRow_perm {l : List (ℕ × ℕ × α)} {R : ℕ}
    (hb : ∀ e ∈ l, e.2.1 < R) : (regroupByRow R l).Perm (l.map swapE) := by
  unfold regroupByRow
  rw [show ((List.range R).flatMap fun i => (l.filter fun e => e.2.1 == i).map swapE) =
      ((List.range R).flatMap fun i => l.filter fun e => e.2.1 == i).map swapE from
    (List.map_flatMap swapE _ _).symm]
  exact (flatMap_filter_perm (fun e => e.2.1) R l hb).map swapE

lemma regroupByRow_pairwise {l : List (ℕ × ℕ × α)} (hl : l.Pairwise entLT) (R : ℕ) :
    (regroupByRow R l).Pairwise entLT := by
  unfold regroupByRow
  rw [List.flatMap_def, List.pairwise_flatten]
  constructor
  · intro s hs
    obtain ⟨i, _, rfl⟩ := List.mem_map.1 hs
    rw [List.pairwise_map]
    refine List.Pairwise.imp_of_mem ?_ (hl.filter _)
    intro a b ha hb hab
    have hai : a.2.1 = i := by simpa using (List.mem_filter.1 ha).2
    have hbi : b.2.1 = i := by simpa using (List.mem_filter.1 hb).2
    rcases hab with h | h
    · exact Or.inr ⟨by rw [swapE, swapE, hai, hbi], h⟩
    · exact absurd h.2 (by omega)
  · rw [List.pairwise_map]
    refine List.Pairwise.imp_of_mem ?_ (List.pairwise_lt_range _)
    intro i j hi hj hij x hx y hy
    obtain ⟨a, ha, rfl⟩ := List.mem_map.1 hx
    obtain ⟨b, hb, rfl⟩ := List.mem_map.1 hy
    have hai : a.2.1 = i := by simpa using (List.mem_filter.1 ha).2
    have hbi : b.2.1 = j := by simpa using (List.mem_filter.1 hb).2
    exact Or.inl (by rw [swapE, swapE]; simpa [hai, hbi] using hij)

lemma swapE_swapE (e : ℕ × ℕ × α) : swapE (swapE e) = e := by
  obtain ⟨a, b, v⟩ := e
  rfl

lemma eq_of_perm_pairwise_entLT {l₁ l₂ : List (ℕ × ℕ × α)} (hp : l₁.Perm l₂)
    (h₁ : l₁.Pairwise entLT) (h₂ : l₂.Pairwise entLT) : l₁ = l₂ := by
  haveI : IsAntisymm (ℕ × ℕ × α) entLT := ⟨by
    intro a b hab hba
    exfalso
    rcases hab with h | h <;> rcases hba with g | g <;> omega⟩
  exact List.eq_of_perm_of_sorted hp h₁ h₂

lemma wf_ofEnts {r c : ℕ} {l : List (ℕ × ℕ × α)} (hl : l.Pairwise entLT)
    (hcol : ∀ e ∈ l, e.1 < c) (hrow : ∀ e ∈ l, e.2.1 < r) : (ofEnts r c l).WF := by
  have hs : l.Pairwise fun a b => a.1 ≤ b.1 :=
    hl.imp fun h => by rcases h with h | h <;> omega
  refine ⟨?_, ?_, ?_, ?_, ?_, ?_⟩
  · simp [ofEnts]
  · rw [show (ofEnts r c l).ci 0 = (l.filter fun e => decide (e.1 < 0)).length from
      ofEnts_ci r c l (by omega)]
    simp
  · intro j hj
    have hj2 : j < c := hj
    rw [ofEnts_ci r c l (by omega), ofEnts_ci r c l (by omega)]
    rw [← List.countP_eq_length_filter, ← List.countP_eq_length_filter]
    apply List.countP_mono_left
    intro x _ hx
    simp only [decide_eq_true_eq] at hx ⊢
    omega
  · rw [show (ofEnts r c l).ci ((ofEnts r c l).size2) =
        (l.filter fun e => decide (e.1 < c)).length from ofEnts_ci r c l le_rfl]
    have hfl : (l.filter fun e => decide (e.1 < c)) = l :=
      List.filter_eq_self.2 fun a ha => by simp [hcol a ha]
    rw [hfl]
    simp [ofEnts]
  · simp [ofEnts]
  · intro j hj
    have hj2 : j < c := hj
    constructor
    · rw [ofEnts_colSlice hs hj2, List.pairwise_map]
      refine List.Pairwise.imp_of_mem ?_ (hl.filter _)
      intro a b ha hb hab
      have hai : a.1 = j := by simpa using (List.mem_filter.1 ha).2
      have hbi : b.1 = j := by simpa using (List.mem_filter.1 hb).2
      rcases hab with h | h
      · omega
      · exact h.2
    · intro i hi
      rw [ofEnts_colSlice hs hj2] at hi
      obtain ⟨e, he, rfl⟩ := List.mem_map.1 hi
      exact hrow e (List.mem_filter.1 he).1

lemma flatMap_colSlice {M : Mat α} (hwf : M.WF) :
    ∀ k, k ≤ M.size2 → (List.range k).flatMap M.colSlice = M.row.take (M.ci k) := by
  intro k
  induction k with
  | zero =>
    intro _
    rw [hwf.2.1]
    simp
  | succ k ih =>
    intro hk
    rw [List.range_succ, List.flatMap_append, ih (by omega)]
    simp only [List.flatMap_cons, List.flatMap_nil, List.append_nil]
    unfold Mat.colSlice
    rw [← List.take_add]
    congr 1
    have := hwf.2.2.1 k (by omega)
    omega

lemma flatMap_dataSlice {M : Mat α} (hwf : M.WF) :
    ∀ k, k ≤ M.size2 → (List.range k).flatMap M.dataSlice = M.data.take (M.ci k) := by
  intro k
  induction k with
  | zero =>
    intro _
    rw [hwf.2.1]
    simp
  | succ k ih =>
    intro hk
    rw [List.range_succ, List.flatMap_append, ih (by omega)]
    simp only [List.flatMap_cons, List.flatMap_nil, List.append_nil]
    unfold Mat.dataSlice
    rw [← List.take_add]
    congr 1
    have := hwf.2.2.1 k (by omega)
    omega

lemma toEnts_map_row {M : Mat α} (hwf : M.WF) :
    M.toEnts.map (fun e => e.2.1) = M.row := by
  unfold Mat.toEnts
  rw [List.map_flatMap]
  have hcongr : ∀ j ∈ List.range M.size2,
      ((((M.colSlice j).zip (M.dataSlice j)).map fun p => (j, p.1, p.2)).map
        fun e : ℕ × ℕ × α => e.2.1) = M.colSlice j := by
    intro j hj
    rw [List.mem_range] at hj
    rw [List.map_map]
    exact List.map_fst_zip _ _ (by rw [length_colSlice hwf hj, length_dataSlice hwf hj])
  rw [List.flatMap_congr hcongr, flatMap_colSlice hwf M.size2 le_rfl, hwf.2.2.2.1]
  exact List.take_length _

lemma toEnts_map_data {M : Mat α} (hwf : M.WF) :
    M.toEnts.map (fun e => e.2.2) = M.data := by
  unfold Mat.toEnts
  rw [List.map_flatMap]
  have hcongr : ∀ j ∈ List.range M.size2,
      ((((M.colSlice j).zip (M.dataSlice j)).map fun p => (j, p.1, p.2)).map
        fun e : ℕ × ℕ × α => e.2.2) = M.dataSlice j := by
    intro j hj
    rw [List.mem_range] at hj
    rw [List.map_map]
    exact List.map_snd_zip _ _ (by rw [length_colSlice hwf hj, length_dataSlice hwf hj])
  rw [List.flatMap_congr hcongr, flatMap_dataSlice hwf M.size2 le_rfl, hwf.2.2.2.1,
    ← hwf.2.2.2.2.1]
  exact List.take_length _

lemma cnt_eq_ci {M : Mat α} (hwf : M.WF) {j : ℕ} (hj : j ≤ M.size2) :
    (M.toEnts.filter fun e => decide (e.1 < j)).length = M.ci j := by
  unfold Mat.toEnts
  rw [flatMap_filter_lt (fun j x hx => by
    obtain ⟨p, _, rfl⟩ := List.mem_map.1 hx
    rfl) j]
  have hmin : min j M.size2 = j := by omega
  rw [hmin]
  have h1 : ((List.range j).flatMap fun j0 =>
      ((M.colSlice j0).zip (M.dataSlice j0)).map fun p => (j0, p.1, p.2)).length =
      ((List.range j).flatMap M.colSlice).length := by
    rw [List.length_flatMap, List.length_flatMap]
    congr 1
    apply List.map_congr_left
    intro j0 hj0
    rw [List.mem_range] at hj0
    simp only [Function.comp_apply, List.length_map, List.length_zip]
    rw [length_colSlice hwf (by omega), length_dataSlice hwf (by omega)]
    simp
  rw [h1, flatMap_colSlice hwf j hj, List.length_take]
  have := ci_le_nnz hwf hj
  omega

lemma colind_as_map {M : Mat α} (hwf : M.WF) :
    M.colind = (List.range (M.size2 + 1)).map fun j => M.ci j := by
  apply List.ext_getElem
  · simp [hwf.1]
  · intro n h1 h2
    simp only [List.getElem_map, List.getElem_range]
    exact (List.getD_eq_getElem M.colind 0 h1).symm

/-- Reconstructing a wellformed matrix from its entry list is the
identity. -/
lemma ofEnts_toEnts {M : Mat α} (hwf : M.WF) :
    ofEnts M.size1 M.size2 M.toEnts = M := by
  have hcolind : ((List.range (M.size2 + 1)).map fun j =>
      (M.toEnts.filter fun e => decide (e.1 < j)).length) = M.colind := by
    rw [colind_as_map hwf]
    apply List.map_congr_left
    intro j hj
    rw [List.mem_range] at hj
    exact cnt_eq_ci hwf (by omega)
  have hrow := toEnts_map_row hwf
  have hdata := toEnts_map_data hwf
  unfold ofEnts
  rw [hcolind, hrow, hdata]

lemma toEnts_transpose {M : Mat α} (hwf : M.WF) :
    (transpose M).toEnts = regroupByRow M.size1 M.toEnts := by
  unfold transpose
  apply toEnts_ofEnts
  · exact (regroupByRow_pairwise (toEnts_pairwise hwf) _).imp fun h => by
      rcases h with h | h <;> omega
  · intro x hx
    obtain ⟨e, he, rfl⟩ :=
      List.mem_map.1 ((regroupByRow_perm (toEnts_row_lt hwf)).mem_iff.1 hx)
    exact toEnts_row_lt hwf e he

lemma wf_transpose {M : Mat α} (hwf : M.WF) : (transpose M).WF := by
  unfold transpose
  apply wf_ofEnts
  · exact regroupByRow_pairwise (toEnts_pairwise hwf) _
  · intro x hx
    obtain ⟨e, he, rfl⟩ :=
      List.mem_map.1 ((regroupByRow_perm (toEnts_row_lt hwf)).mem_iff.1 hx)
    exact toEnts_row_lt hwf e he
  · intro x hx
    obtain ⟨e, he, rfl⟩ :=
      List.mem_map.1 ((regroupByRow_perm (toEnts_row_lt hwf)).mem_iff.1 hx)
    exact toEnts_col_lt e he

/-- The transpose is an involution on wellformed matrices. -/
lemma transpose_transpose {M : Mat α} (hwf : M.WF) : transpose (transpose M) = M := by
  have h1 : (transpose M).toEnts = regroupByRow M.size1 M.toEnts := toEnts_transpose hwf
  have hL2eq : regroupByRow M.size2 (regroupByRow M.size1 M.toEnts) = M.toEnts := by
    apply eq_of_perm_pairwise_entLT
    · have hp1 : (regroupByRow M.size1 M.toEnts).Perm (M.toEnts.map swapE) :=
        regroupByRow_perm (toEnts_row_lt hwf)
      have hb2 : ∀ e ∈ regroupByRow M.size1 M.toEnts, e.2.1 < M.size2 := by
        intro e he
        obtain ⟨e0, he0, rfl⟩ := List.mem_map.1 (hp1.mem_iff.1 he)
        exact toEnts_col_lt e0 he0
      refine (regroupByRow_perm hb2).trans ?_
      refine (hp1.map swapE).trans ?_
      rw [List.map_map]
      rw [show M.toEnts.map (swapE ∘ swapE) = M.toEnts.map (fun e => e) from
        List.map_congr_left fun e _ => swapE_swapE e]
      rw [List.map_id']
    · exact regroupByRow_pairwise (regroupByRow_pairwise (toEnts_pairwise hwf) _) _
    · exact toEnts_pairwise hwf
  show ofEnts (transpose M).size2 (transpose M).size1
      (regroupByRow (transpose M).size1 (transpose M).toEnts) = M
  rw [show (transpose M).size2 = M.size1 from rfl,
    show (transpose M).size1 = M.size2 from rfl, h1, hL2eq]
  exact ofEnts_toEnts hwf

lemma ci_piece {v : Mat α} (hwf : v.WF) {s t j : ℕ} (hst : s ≤ t) (ht : t ≤ v.size2)
    (hj : j ≤ t - s) : (pieceAt v s t).ci j = v.ci (s + j) - v.ci s := by
  unfold pieceAt Mat.ci
  dsimp only
  have hlen : s + j < v.colind.length := by rw [hwf.1]; omega
  have hb : j < (((v.colind.drop s).take (t - s + 1)).map fun u => u - v.colind.getD s 0).length := by
    simp only [List.length_map, List.length_take, List.length_drop, hwf.1]
    omega
  rw [List.getD_eq_getElem _ 0 hb, List.getElem_map, List.getElem_take, List.getElem_drop]
  congr 1
  exact (List.getD_eq_getElem v.colind 0 hlen).symm

lemma colSlice_piece {v : Mat α} (hwf : v.WF) {s t j : ℕ} (hst : s ≤ t)
    (ht : t ≤ v.size2) (hj : j < t - s) :
    (pieceAt v s t).colSlice j = v.colSlice (s + j) := by
  have m1 : v.ci s ≤ v.ci (s + j) := ci_mono hwf (by omega) (by omega)
  have m2 : v.ci (s + j) ≤ v.ci (s + j + 1) := ci_mono hwf (by omega) (by omega)
  have m3 : v.ci (s + j + 1) ≤ v.ci t := ci_mono hwf (by omega) ht
  unfold Mat.colSlice
  rw [ci_piece hwf hst ht (by omega), ci_piece hwf hst ht (by omega)]
  have h1 : (pieceAt v s t).row = (v.row.drop (v.ci s)).take (v.ci t - v.ci s) := rfl
  rw [h1, List.drop_take, List.drop_drop, List.take_take]
  rw [show s + (j + 1) = s + j + 1 from by omega]
  congr 1
  · omega
  · congr 1
    omega

lemma dataSlice_piece {v : Mat α} (hwf : v.WF) {s t j : ℕ} (hst : s ≤ t)
    (ht : t ≤ v.size2) (hj : j < t - s) :
    (pieceAt v s t).dataSlice j = v.dataSlice (s + j) := by
  have m1 : v.ci s ≤ v.ci (s + j) := ci_mono hwf (by omega) (by omega)
  have m2 : v.ci (s + j) ≤ v.ci (s + j + 1) := ci_mono hwf (by omega) (by omega)
  have m3 : v.ci (s + j + 1) ≤ v.ci t := ci_mono hwf (by omega) ht
  unfold Mat.dataSlice
  rw [ci_piece hwf hst ht (by omega), ci_piece hwf hst ht (by omega)]
  have h1 : (pieceAt v s t).data = (v.data.drop (v.ci s)).take (v.ci t - v.ci s) := rfl
  rw [h1, List.drop_take, List.drop_drop, List.take_take]
  rw [show s + (j + 1) = s + j + 1 from by omega]
  congr 1
  · omega
  · congr 1
    omega

/-- Every column group of a wellformed matrix is wellformed. -/
lemma wf_piece {v : Mat α} (hwf : v.WF) {s t : ℕ} (hst : s ≤ t) (ht : t ≤ v.size2) :
    (pieceAt v s t).WF := by
  have hct : v.ci t ≤ v.row.length := ci_le_nnz hwf ht
  have hcs : v.ci s ≤ v.ci t := ci_mono hwf hst ht
  have hdl : v.data.length = v.row.length := hwf.2.2.2.2.1
  refine ⟨?_, ?_, ?_, ?_, ?_, ?_⟩
  · show (((v.colind.drop s).take (t - s + 1)).map fun u => u - v.ci s).length = (t - s) + 1
    simp only [List.length_map, List.length_take, List.length_drop, hwf.1]
    omega
  · rw [ci_piece hwf hst ht (by omega), Nat.add_zero]
    omega
  · intro j hj
    have hj2 : j < t - s := hj
    rw [ci_piece hwf hst ht (by omega), ci_piece hwf hst ht (by omega)]
    have m1 : v.ci s ≤ v.ci (s + j) := ci_mono hwf (by omega) (by omega)
    have m2 : v.ci (s + j) ≤ v.ci (s + (j + 1)) := ci_mono hwf (by omega) (by omega)
    omega
  · rw [show (pieceAt v s t).size2 = t - s from rfl, ci_piece hwf hst ht le_rfl]
    show _ = ((v.row.drop (v.ci s)).take (v.ci t - v.ci s)).length
    rw [List.length_take, List.length_drop]
    rw [show s + (t - s) = t from by omega]
    omega
  · show ((v.data.drop (v.ci s)).take (v.ci t - v.ci s)).length =
      ((v.row.drop (v.ci s)).take (v.ci t - v.ci s)).length
    rw [List.length_take, List.length_drop, List.length_take, List.length_drop, hdl]
  · intro j hj
    have hj2 : j < t - s := hj
    rw [colSlice_piece hwf hst ht hj2]
    refine ⟨(hwf.2.2.2.2.2 (s + j) (by omega)).1, ?_⟩
    intro i hi
    show i < v.size1
    exact (hwf.2.2.2.2.2 (s + j) (by omega)).2 i hi

lemma monotoneB_getD_le {l : List ℕ} (hm : monotoneB l = true) :
    ∀ {i : ℕ}, i + 1 < l.length → l.getD i 0 ≤ l.getD (i + 1) 0 := by
  induction l with
  | nil => intro i hi; simp at hi
  | cons a t ih =>
    intro i hi
    cases t with
    | nil => simp at hi
    | cons b u =>
      cases i with
      | zero =>
        unfold monotoneB at hm
        rw [Bool.and_eq_true, decide_eq_true_eq] at hm
        simpa using hm.1
      | succ i =>
        rw [List.getD_cons_succ, List.getD_cons_succ]
        exact ih (monotoneB_tail hm) (by simpa using hi)

/-- Each group produced by a successful horzsplit is wellformed and keeps
the row dimension. -/
lemma horzsplit_pieces_wf {v : Mat α} {O : List ℕ} {ps : List (Mat α)} (hwf : v.WF)
    (h : horzsplit v O = .ok ps) :
    ∀ p ∈ ps, p.WF ∧ p.size1 = v.size1 ∧ p.size2 ≤ v.size2 := by
  unfold horzsplit at h
  split_ifs at h with h1 h2 h3 h4 <;> simp only [reduceCtorEq] at h
  rw [Except.ok.injEq] at h
  subst h
  intro p hp
  obtain ⟨i, hi, hip⟩ := List.mem_map.1 hp
  rw [List.mem_range] at hi
  have hstart_mem : O.getD i 0 ∈ O := by
    rw [List.getD_eq_getElem O 0 hi]
    exact List.getElem_mem _
  have hstart_last : O.getD i 0 ≤ O.getLastD 0 := monotoneB_le_getLastD h4 _ hstart_mem
  have hstart : O.getD i 0 ≤ v.size2 := by omega
  by_cases hi1 : i + 1 < O.length
  · have hstop_mem : O.getD (i + 1) 0 ∈ O := by
      rw [List.getD_eq_getElem O 0 hi1]
      exact List.getElem_mem _
    have hstop_last : O.getD (i + 1) 0 ≤ O.getLastD 0 := monotoneB_le_getLastD h4 _ hstop_mem
    have hstep : O.getD i 0 ≤ O.getD (i + 1) 0 := monotoneB_getD_le h4 hi1
    rw [if_pos hi1] at hip
    subst hip
    refine ⟨wf_piece hwf hstep (by omega), rfl, ?_⟩
    show O.getD (i + 1) 0 - O.getD i 0 ≤ _
    omega
  · rw [if_neg hi1] at hip
    subst hip
    refine ⟨wf_piece hwf hstart le_rfl, rfl, ?_⟩
    show v.size2 - O.getD i 0 ≤ _
    omega

lemma vertcat_transpose_form (v : List (Mat α)) :
    vertcat v = transpose (horzcat (v.map transpose)) := by
  unfold vertcat horzcat
  rw [List.foldl_map]

lemma mapM_horzsplit_ok {Oc : List ℕ} :
    ∀ (bands : List (Mat α)),
      (∀ b ∈ bands, (horzsplit b Oc).map horzcat = .ok b) →
      ∃ vv, (bands.mapM fun r => horzsplit r Oc) = .ok vv ∧ vv.map horzcat = bands := by
  intro bands
  induction bands with
  | nil => exact fun _ => ⟨[], rfl, rfl⟩
  | cons b t ih =>
    intro hall
    obtain ⟨vv, hvv, hcat⟩ := ih fun x hx => hall x (List.mem_cons_of_mem _ hx)
    have hb := hall b (List.mem_cons_self _ _)
    rcases hE : horzsplit b Oc with e | qs
    · rw [hE] at hb
      exact absurd hb (by simp [Except.map])
    · rw [hE] at hb
      have hq : horzcat qs = b := by simpa [Except.map] using hb
      refine ⟨qs :: vv, ?_, by simp [hq, hcat]⟩
      rw [List.mapM_cons, hE, hvv]
      rfl

/-- Claim C2: for every wellformed matrix and valid offset vectors,
splitting and then concatenating reconstructs the matrix exactly (same
sparsity pattern and same nonzero data), for the horizontal, vertical and
block variants. -/
theorem c2_split_concat_round_trip (M : Mat α) (Oc Or : List ℕ) (hwf : M.WF)
    (hc1 : Oc ≠ []) (hc2 : Oc.headD 0 = 0) (hc3 : Oc.getLastD 0 ≤ M.size2)
    (hc4 : monotoneB Oc = true)
    (hr1 : Or ≠ []) (hr2 : Or.headD 0 = 0) (hr3 : Or.getLastD 0 ≤ M.size1)
    (hr4 : monotoneB Or = true) :
    (horzsplit M Oc).map horzcat = .ok M ∧
    (vertsplit M Or).map vertcat = .ok M ∧
    (blocksplit M Or Oc).map blockcat = .ok M := by
  have hTwf : (transpose M).WF := wf_transpose hwf
  have hTh : (horzsplit (transpose M) Or).map horzcat = .ok (transpose M) :=
    horzcat_horzsplit hTwf hr1 hr2 (by exact hr3) hr4
  rcases hE : horzsplit (transpose M) Or with e | ps
  · rw [hE] at hTh
    exact absurd hTh (by simp [Except.map])
  rw [hE] at hTh
  have hcatT : horzcat ps = transpose M := by simpa [Except.map] using hTh
  have hpswf := horzsplit_pieces_wf hTwf hE
  have hvs : vertsplit M Or = .ok (ps.map transpose) := by
    unfold vertsplit
    rw [hE]
    rfl
  have hTT : (ps.map transpose).map transpose = ps := by
    rw [List.map_map]
    refine (List.map_congr_left ?_).trans (List.map_id' ps)
    intro p hp
    exact transpose_transpose (hpswf p hp).1
  have hvcat : vertcat (ps.map transpose) = M := by
    rw [vertcat_transpose_form, hTT, hcatT]
    exact transpose_transpose hwf
  refine ⟨horzcat_horzsplit hwf hc1 hc2 hc3 hc4, ?_, ?_⟩
  · rw [hvs]
    show Except.ok (vertcat (ps.map transpose)) = .ok M
    rw [hvcat]
  · have hbands : ∀ b ∈ ps.map transpose, (horzsplit b Oc).map horzcat = .ok b := by
      intro b hb
      obtain ⟨p, hp, rfl⟩ := List.mem_map.1 hb
      obtain ⟨hpwf, hps1, _⟩ := hpswf p hp
      have hbwf := wf_transpose hpwf
      have hbsz : (transpose p).size2 = M.size2 := by
        show p.size1 = M.size2
        rw [hps1]
        rfl
      exact horzcat_horzsplit hbwf hc1 hc2 (by rw [hbsz]; exact hc3) hc4
    obtain ⟨vv, hvv, hvvcat⟩ := mapM_horzsplit_ok (ps.map transpose) hbands
    unfold blocksplit
    rw [hvs]
    show ((ps.map transpose).mapM fun r => horzsplit r Oc).map blockcat = .ok M
    rw [hvv]
    show Except.ok (blockcat vv) = .ok M
    unfold blockcat
    rw [hvvcat, hvcat]

/-! ### Unite: disjoint-pattern merge -/

/-- Sparsity query: is position (i, j) a structural nonzero. -/
def hasNZ (M : Mat α) (i j : ℕ) : Bool := decide (i ∈ M.colSlice j)

/-- Modelled from the spec: the tagged merge of two sorted row-index lists
of one column, the core of Sparsity::patternUnion (the sparsity component
is external).  Tag 1 marks a position only in the first pattern, tag 2
only in the second, tag 3 both. -/
def mergeTag : List ℕ → List ℕ → List (ℕ × ℕ)
  | [], bs => bs.map fun i => (i, 2)
  | as, [] => as.map fun i => (i, 1)
  | a :: as, b :: bs =>
    if a < b then (a, 1) :: mergeTag as (b :: bs)
    else if b < a then (b, 2) :: mergeTag (a :: as) bs
    else (a, 3) :: mergeTag as bs
termination_by as bs => as.length + bs.length

/-- Modelled from the spec: Sparsity::patternUnion with mapping output,
as the column-by-column tagged merge; entries are (column, row, tag). -/
def patternUnion (A B : Mat α) : List (ℕ × ℕ × ℕ) :=
  (List.range A.size2).flatMap fun j =>
    (mergeTag (A.colSlice j) (B.colSlice j)).map fun p => (j, p.1, p.2)

/-- The nonzero-copy loop of unite: mapping value 1 consumes the next
entry of A, 2 the next entry of B, anything else raises the pattern
intersection error.  Returns the merged data and the unconsumed rests. -/
def uniteLoop : List ℕ → List α → List α → Except String (List α × List α × List α)
  | [], dA, dB => .ok ([], dA, dB)
  | k :: m, dA, dB =>
    if k = 1 then
      match dA with
      | a :: dA2 => (uniteLoop m dA2 dB).map fun r => (a :: r.1, r.2)
      | [] => .error "unite: nonzero data overrun"
    else if k = 2 then
      match dB with
      | b :: dB2 => (uniteLoop m dA dB2).map fun r => (b :: r.1, r.2)
      | [] => .error "unite: nonzero data overrun"
    else .error "Pattern intersection not empty"

/-- unite(A, B): join the sparsity patterns, then copy each nonzero from
the matrix that owns it, raising if any position is tagged as coming from
both; the trailing checks model the source asserts that all of A.data and
B.data were consumed. -/
def unite (A B : Mat α) : Except String (Mat α) :=
  (uniteLoop ((patternUnion A B).map fun e => e.2.2) A.data B.data).bind fun r =>
    if r.2.1.isEmpty && r.2.2.isEmpty then
      .ok ⟨A.size1, A.size2,
        (List.range (A.size2 + 1)).map fun j =>
          ((patternUnion A B).filter fun e => decide (e.1 < j)).length,
        (patternUnion A B).map fun e => e.2.1,
        r.1⟩
    else .error "unite: pattern count mismatch"

/-- The merge of two per-column (row, value) lists, each position valued
by the pattern that owns it (the union merge of the spec). -/
def mergeVal : List (ℕ × α) → List (ℕ × α) → List (ℕ × α)
  | [], bs => bs
  | as, [] => as
  | a :: as, b :: bs =>
    if a.1 < b.1 then a :: mergeVal as (b :: bs)
    else if b.1 < a.1 then b :: mergeVal (a :: as) bs
    else a :: mergeVal as bs
termination_by as bs => as.length + bs.length

/-- The union entry list described by the spec: for each column, the
merged positions of A and B, each taking its value from its owner. -/
def mergeEnts (A B : Mat α) : List (ℕ × ℕ × α) :=
  (List.range A.size2).flatMap fun j =>
    (mergeVal ((A.colSlice j).zip (A.dataSlice j)) ((B.colSlice j).zip (B.dataSlice j))).map
      fun p => (j, p.1, p.2)

/-- The tagged merge carrying values, used to relate the pattern merge to
the data loop: entries are (row, tag, value). -/
def mergeTV : List (ℕ × α) → List (ℕ × α) → List (ℕ × ℕ × α)
  | [], bs => bs.map fun p => (p.1, 2, p.2)
  | as, [] => as.map fun p => (p.1, 1, p.2)
  | a :: as, b :: bs =>
    if a.1 < b.1 then (a.1, 1, a.2) :: mergeTV as (b :: bs)
    else if b.1 < a.1 then (b.1, 2, b.2) :: mergeTV (a :: as) bs
    else (a.1, 3, a.2) :: mergeTV as bs
termination_by as bs => as.length + bs.length

/-- A concrete wellformed 2 by 2 diagonal matrix used by witnesses. -/
def exMat : Mat ℚ := ⟨2, 2, [0, 1, 2], [0, 1], [5, 7]⟩

/-- Witness for C2: the example matrix split at offsets [0, 1] in each
direction is reconstructed exactly by the concatenations. -/
theorem c2_split_concat_round_trip_witness :
    exMat.WF ∧
    (horzsplit exMat [0, 1]).map horzcat = .ok exMat ∧
    (vertsplit exMat [0, 1]).map vertcat = .ok exMat ∧
    (blocksplit exMat [0, 1] [0, 1]).map blockcat = .ok exMat :=
  ⟨by decide,
   (c2_split_concat_round_trip exMat [0, 1] [0, 1] (by decide) (by decide) (by decide)
      (by decide) (by decide) (by decide) (by decide) (by decide) (by decide)).1,
   (c2_split_concat_round_trip exMat [0, 1] [0, 1] (by decide) (by decide) (by decide)
      (by decide) (by decide) (by decide) (by decide) (by decide) (by decide)).2.1,
   (c2_split_concat_round_trip exMat [0, 1] [0, 1] (by decide) (by decide) (by decide)
      (by decide) (by decide) (by decide) (by decide) (by decide) (by decide)).2.2⟩

/-- Witness for C6: the offset vector [1] does not start at zero, so both
split variants report an error on the example matrix. -/
theorem c6_split_offset_preconditions_witness :
    ([1] = ([] : List ℕ) ∨ ([1] : List ℕ).headD 0 ≠ 0 ∨ exMat.size2 < ([1] : List ℕ).getLastD 0 ∨
      monotoneB [1] = false) ∧
    (∃ e, horzsplit exMat [1] = .error e) ∧ ∃ e, vertsplit exMat [1] = .error e :=
  ⟨Or.inr (Or.inl (by decide)),
   (c6_split_offset_preconditions exMat [1]).1 (Or.inr (Or.inl (by decide))),
   (c6_split_offset_preconditions exMat [1]).2 (Or.inr (Or.inl (by decide)))⟩

/-! ### Lemmas about the tagged merges of unite -/

/-- flatMap respects pointwise equality of the bodies on members. -/
lemma flatMap_congr_mem {ι β : Type _} {l : List ι} {f g : ι → List β}
    (h : ∀ a ∈ l, f a = g a) : l.flatMap f = l.flatMap g := by
  induction l with
  | nil => rfl
  | cons a l ih =>
    simp only [List.flatMap_cons]
    rw [h a (List.mem_cons_self a l), ih fun b hb => h b (List.mem_cons_of_mem _ hb)]

/-- filter distributes over flatMap. -/
lemma filter_flatMap {ι β : Type _} (l : List ι) (g : ι → List β) (p : β → Bool) :
    (l.flatMap g).filter p = l.flatMap fun i => (g i).filter p := by
  induction l with
  | nil => rfl
  | cons i l ih => simp only [List.flatMap_cons, List.filter_append, ih]

/-- Equal key images give equal filtered lengths. -/
lemma length_filter_key {β γ : Type _} {l1 : List β} {l2 : List γ} {f1 : β → ℕ} {f2 : γ → ℕ}
    (h : l1.map f1 = l2.map f2) (p : ℕ → Bool) :
    (l1.filter fun x => p (f1 x)).length = (l2.filter fun x => p (f2 x)).length := by
  rw [← List.countP_eq_length_filter, ← List.countP_eq_length_filter]
  calc (l1.countP fun x => p (f1 x)) = (l1.map f1).countP p := (List.countP_map p f1 l1).symm
    _ = (l2.map f2).countP p := by rw [h]
    _ = l2.countP fun x => p (f2 x) := List.countP_map p f2 l2

/-- The (row, tag) projection of the value-carrying merge is the tagged
pattern merge of the key lists. -/
lemma mergeTV_proj :
    ∀ (n : ℕ) (za zb : List (ℕ × α)), za.length + zb.length ≤ n →
      (mergeTV za zb).map (fun p => (p.1, p.2.1)) =
        mergeTag (za.map Prod.fst) (zb.map Prod.fst) := by
  intro n
  induction n with
  | zero =>
    intro za zb hlen
    have ha : za = [] := List.eq_nil_of_length_eq_zero (by omega)
    have hb : zb = [] := List.eq_nil_of_length_eq_zero (by omega)
    subst ha; subst hb
    simp [mergeTV, mergeTag]
  | succ n ih =>
    intro za zb hlen
    cases za with
    | nil => simp [mergeTV, mergeTag, List.map_map, Function.comp]
    | cons a za =>
      cases zb with
      | nil => simp [mergeTV, mergeTag, List.map_map, Function.comp]
      | cons b zb =>
        simp only [List.map_cons]
        rw [mergeTV, mergeTag]
        split_ifs with hab hba
        · simp only [List.map_cons]
          rw [ih za (b :: zb) (by simp only [List.length_cons] at hlen ⊢; omega)]
          rfl
        · simp only [List.map_cons]
          rw [ih (a :: za) zb (by simp only [List.length_cons] at hlen ⊢; omega)]
          rfl
        · simp only [List.map_cons]
          rw [ih za zb (by simp only [List.length_cons] at hlen ⊢; omega)]

/-- On key-disjoint inputs the value-carrying merge only produces tags 1
and 2, its value projection is the owner-valued merge, and the tag-1 and
tag-2 fibers recover the two value lists in order. -/
lemma mergeTV_disjoint :
    ∀ (n : ℕ) (za zb : List (ℕ × α)), za.length + zb.length ≤ n →
      (∀ k, k ∈ za.map Prod.fst → k ∉ zb.map Prod.fst) →
      (∀ p ∈ mergeTV za zb, p.2.1 = 1 ∨ p.2.1 = 2) ∧
      (mergeTV za zb).map (fun p => (p.1, p.2.2)) = mergeVal za zb ∧
      ((mergeTV za zb).filter fun p => p.2.1 == 1).map (fun p => p.2.2) = za.map Prod.snd ∧
      ((mergeTV za zb).filter fun p => p.2.1 == 2).map (fun p => p.2.2) = zb.map Prod.snd := by
  intro n
  induction n with
  | zero =>
    intro za zb hlen _
    have ha : za = [] := List.eq_nil_of_length_eq_zero (by omega)
    have hb : zb = [] := List.eq_nil_of_length_eq_zero (by omega)
    subst ha; subst hb
    simp [mergeTV, mergeVal]
  | succ n ih =>
    intro za zb hlen hdisj
    cases za with
    | nil =>
      refine ⟨?_, ?_, ?_, ?_⟩
      · intro p hp
        simp only [mergeTV, List.mem_map] at hp
        obtain ⟨q, _, rfl⟩ := hp
        exact Or.inr rfl
      · simp [mergeTV, mergeVal, List.map_map, Function.comp_def, Prod.mk.eta, List.map_id]
      · simp [mergeTV, List.filter_map, Function.comp_def]
      · simp [mergeTV, List.filter_map, Function.comp_def, List.map_map]
    | cons a za =>
      cases zb with
      | nil =>
        refine ⟨?_, ?_, ?_, ?_⟩
        · intro p hp
          simp only [mergeTV, List.mem_map] at hp
          obtain ⟨q, _, rfl⟩ := hp
          exact Or.inl rfl
        · simp [mergeTV, mergeVal, List.map_map, Function.comp_def, Prod.mk.eta, List.map_id]
        · simp [mergeTV, List.filter_map, Function.comp_def, List.map_map]
        · simp [mergeTV, List.filter_map, Function.comp_def]
      | cons b zb =>
        have hne : ¬ a.1 = b.1 := by
          intro h
          exact hdisj a.1 (by simp) (by simp only [List.map_cons]; rw [h]; exact List.mem_cons_self _ _)
        rw [mergeTV, mergeVal]
        split_ifs with hab hba
        · have hd' : ∀ k, k ∈ za.map Prod.fst → k ∉ (b :: zb).map Prod.fst := fun k hk =>
            hdisj k (by simp only [List.map_cons]; exact List.mem_cons_of_mem _ hk)
          obtain ⟨ht, hv, hf1, hf2⟩ :=
            ih za (b :: zb) (by simp only [List.length_cons] at hlen ⊢; omega) hd'
          refine ⟨?_, ?_, ?_, ?_⟩
          · intro p hp
            rcases List.mem_cons.1 hp with rfl | hp2
            · exact Or.inl rfl
            · exact ht p hp2
          · simp only [List.map_cons, hv]
          · simp [List.filter_cons, hf1]
          · simp [List.filter_cons, hf2]
        · have hd' : ∀ k, k ∈ (a :: za).map Prod.fst → k ∉ zb.map Prod.fst := fun k hk h2 =>
            hdisj k hk (by simp only [List.map_cons]; exact List.mem_cons_of_mem _ h2)
          obtain ⟨ht, hv, hf1, hf2⟩ :=
            ih (a :: za) zb (by simp only [List.length_cons] at hlen ⊢; omega) hd'
          refine ⟨?_, ?_, ?_, ?_⟩
          · intro p hp
            rcases List.mem_cons.1 hp with rfl | hp2
            · exact Or.inr rfl
            · exact ht p hp2
          · simp only [List.map_cons, hv]
          · simp [List.filter_cons, hf1]
          · simp [List.filter_cons, hf2]
        · exact absurd (by omega : a.1 = b.1) hne

/-- In the tagged merge of two sorted lists sharing an element, some
position carries tag 3. -/
lemma mergeTag_three :
    ∀ (n : ℕ) (as bs : List ℕ), as.length + bs.length ≤ n →
      as.Pairwise (· < ·) → bs.Pairwise (· < ·) →
      ∀ k, k ∈ as → k ∈ bs → ∃ k2, (k2, 3) ∈ mergeTag as bs := by
  intro n
  induction n with
  | zero =>
    intro as bs hlen _ _ k hka _
    have ha : as = [] := List.eq_nil_of_length_eq_zero (by omega)
    subst ha
    exact absurd hka (List.not_mem_nil k)
  | succ n ih =>
    intro as bs hlen ha hb k hka hkb
    cases as with
    | nil => exact absurd hka (List.not_mem_nil k)
    | cons a as =>
      cases bs with
      | nil => exact absurd hkb (List.not_mem_nil k)
      | cons b bs =>
        rw [mergeTag]
        by_cases hab : a < b
        · rw [if_pos hab]
          have hka2 : k ∈ as := by
            rcases List.mem_cons.1 hka with rfl | h
            · rcases List.mem_cons.1 hkb with h2 | h2
              · omega
              · have := List.rel_of_pairwise_cons hb h2; omega
            · exact h
          obtain ⟨k2, hk2⟩ :=
            ih as (b :: bs) (by simp only [List.length_cons] at hlen ⊢; omega)
              (List.pairwise_cons.1 ha).2 hb k hka2 hkb
          exact ⟨k2, List.mem_cons_of_mem _ hk2⟩
        · by_cases hba : b < a
          · rw [if_neg hab, if_pos hba]
            have hkb2 : k ∈ bs := by
              rcases List.mem_cons.1 hkb with rfl | h
              · rcases List.mem_cons.1 hka with h2 | h2
                · omega
                · have := List.rel_of_pairwise_cons ha h2; omega
              · exact h
            obtain ⟨k2, hk2⟩ :=
              ih (a :: as) bs (by simp only [List.length_cons] at hlen ⊢; omega)
                ha (List.pairwise_cons.1 hb).2 k hka hkb2
            exact ⟨k2, List.mem_cons_of_mem _ hk2⟩
          · rw [if_neg hab, if_neg hba]
            exact ⟨a, List.mem_cons_self _ _⟩

/-- The copy loop succeeds on a 1/2-tagged stream whose per-tag fibers
are exactly the two data lists, producing the merged values. -/
lemma uniteLoop_ok :
    ∀ tv : List (ℕ × α), (∀ p ∈ tv, p.1 = 1 ∨ p.1 = 2) →
      uniteLoop (tv.map Prod.fst)
        ((tv.filter fun p => p.1 == 1).map Prod.snd)
        ((tv.filter fun p => p.1 == 2).map Prod.snd) = .ok (tv.map Prod.snd, [], []) := by
  intro tv
  induction tv with
  | nil => intro _; rfl
  | cons p tv ih =>
    intro h1
    have hrec := ih fun q hq => h1 q (List.mem_cons_of_mem _ hq)
    rcases h1 p (List.mem_cons_self _ _) with hp | hp
    · simp [uniteLoop, hp, List.filter_cons, hrec, Except.map]
    · simp [uniteLoop, hp, List.filter_cons, hrec, Except.map]

/-- The copy loop fails on any stream containing a tag other than 1 and 2. -/
lemma uniteLoop_error :
    ∀ m : List ℕ, (∃ k ∈ m, k ≠ 1 ∧ k ≠ 2) →
      ∀ dA dB : List α, ∃ e, uniteLoop m dA dB = .error e := by
  intro m
  induction m with
  | nil =>
    intro hm
    exact absurd hm (by simp)
  | cons k m ih =>
    intro hm dA dB
    by_cases hk1 : k = 1
    · subst hk1
      have hm' : ∃ k ∈ m, k ≠ 1 ∧ k ≠ 2 := by
        obtain ⟨k2, hk2, h12⟩ := hm
        rcases List.mem_cons.1 hk2 with rfl | h
        · exact absurd rfl h12.1
        · exact ⟨k2, h, h12⟩
      cases dA with
      | nil => exact ⟨_, rfl⟩
      | cons a dA2 =>
        obtain ⟨e, he⟩ := ih hm' dA2 dB
        exact ⟨e, by simp [uniteLoop, he, Except.map]⟩
    · by_cases hk2 : k = 2
      · subst hk2
        have hm' : ∃ k ∈ m, k ≠ 1 ∧ k ≠ 2 := by
          obtain ⟨k2, hk2, h12⟩ := hm
          rcases List.mem_cons.1 hk2 with rfl | h
          · exact absurd rfl h12.2
          · exact ⟨k2, h, h12⟩
        cases dB with
        | nil => exact ⟨_, rfl⟩
        | cons b dB2 =>
          obtain ⟨e, he⟩ := ih hm' dA dB2
          exact ⟨e, by simp [uniteLoop, he, Except.map]⟩
      · exact ⟨"Pattern intersection not empty", by simp [uniteLoop, hk1, hk2]⟩

/-- The value-carrying merge of one column of two matrices. -/
def mergeCol (A B : Mat α) (j : ℕ) : List (ℕ × ℕ × α) :=
  mergeTV ((A.colSlice j).zip (A.dataSlice j)) ((B.colSlice j).zip (B.dataSlice j))

/-- Per-column consequences of wellformedness and disjointness for the
value-carrying merge. -/
lemma mergeCol_facts {A B : Mat α} (hwfA : A.WF) (hwfB : B.WF)
    (h2 : A.size2 = B.size2)
    (hd : ∀ j < A.size2, ∀ i ∈ A.colSlice j, i ∉ B.colSlice j)
    {j : ℕ} (hj : j < A.size2) :
    mergeTag (A.colSlice j) (B.colSlice j) = (mergeCol A B j).map (fun p => (p.1, p.2.1)) ∧
    (∀ p ∈ mergeCol A B j, p.2.1 = 1 ∨ p.2.1 = 2) ∧
    (mergeCol A B j).map (fun p => (p.1, p.2.2)) =
      mergeVal ((A.colSlice j).zip (A.dataSlice j)) ((B.colSlice j).zip (B.dataSlice j)) ∧
    ((mergeCol A B j).filter fun p => p.2.1 == 1).map (fun p => p.2.2) = A.dataSlice j ∧
    ((mergeCol A B j).filter fun p => p.2.1 == 2).map (fun p => p.2.2) = B.dataSlice j := by
  have hlA : (A.colSlice j).length = (A.dataSlice j).length := by
    rw [length_colSlice hwfA hj, length_dataSlice hwfA hj]
  have hjB : j < B.size2 := h2 ▸ hj
  have hlB : (B.colSlice j).length = (B.dataSlice j).length := by
    rw [length_colSlice hwfB hjB, length_dataSlice hwfB hjB]
  have hfA : ((A.colSlice j).zip (A.dataSlice j)).map Prod.fst = A.colSlice j :=
    List.map_fst_zip _ _ (le_of_eq hlA)
  have hsA : ((A.colSlice j).zip (A.dataSlice j)).map Prod.snd = A.dataSlice j :=
    List.map_snd_zip _ _ (le_of_eq hlA.symm)
  have hfB : ((B.colSlice j).zip (B.dataSlice j)).map Prod.fst = B.colSlice j :=
    List.map_fst_zip _ _ (le_of_eq hlB)
  have hsB : ((B.colSlice j).zip (B.dataSlice j)).map Prod.snd = B.dataSlice j :=
    List.map_snd_zip _ _ (le_of_eq hlB.symm)
  have hdisj : ∀ k, k ∈ ((A.colSlice j).zip (A.dataSlice j)).map Prod.fst →
      k ∉ ((B.colSlice j).zip (B.dataSlice j)).map Prod.fst := by
    rw [hfA, hfB]
    exact hd j hj
  obtain ⟨ht, hv, hf1, hf2⟩ := mergeTV_disjoint _ _ _ le_rfl hdisj
  exact ⟨((mergeTV_proj _ _ _ le_rfl).trans (by rw [hfA, hfB])).symm,
    ht, hv, hf1.trans hsA, hf2.trans hsB⟩

/-- If some position is in both patterns, unite raises. -/
lemma unite_overlap_error {A B : Mat α} (hwfA : A.WF) (hwfB : B.WF)
    (h2 : A.size2 = B.size2) {i j : ℕ} (hj : j < A.size2)
    (hiA : i ∈ A.colSlice j) (hiB : i ∈ B.colSlice j) :
    ∃ e, unite A B = .error e := by
  have hsA : (A.colSlice j).Pairwise (· < ·) := (hwfA.2.2.2.2.2 j hj).1
  have hsB : (B.colSlice j).Pairwise (· < ·) := (hwfB.2.2.2.2.2 j (h2 ▸ hj)).1
  obtain ⟨k2, hk2⟩ := mergeTag_three _ _ _ le_rfl hsA hsB i hiA hiB
  have h3 : (3 : ℕ) ∈ (patternUnion A B).map fun e => e.2.2 := by
    apply List.mem_map.2
    refine ⟨(j, k2, 3), ?_, rfl⟩
    unfold patternUnion
    exact List.mem_flatMap.2 ⟨j, List.mem_range.2 hj, List.mem_map.2 ⟨(k2, 3), hk2, rfl⟩⟩
  obtain ⟨e, he⟩ := uniteLoop_error _ ⟨3, h3, by decide, by decide⟩ A.data B.data
  refine ⟨e, ?_⟩
  unfold unite
  rw [he]
  rfl

/-- On disjoint patterns unite returns the matrix rebuilt from the
owner-valued union entry list. -/
lemma unite_disjoint_eq {A B : Mat α} (hwfA : A.WF) (hwfB : B.WF)
    (h2 : A.size2 = B.size2)
    (hd : ∀ j < A.size2, ∀ i ∈ A.colSlice j, i ∉ B.colSlice j) :
    unite A B = .ok (ofEnts A.size1 A.size2 (mergeEnts A B)) := by
  have hfacts := fun (j : ℕ) (hj : j < A.size2) => mergeCol_facts hwfA hwfB h2 hd hj
  have hpu : patternUnion A B =
      (List.range A.size2).flatMap fun j => (mergeCol A B j).map fun p => (j, p.1, p.2.1) := by
    unfold patternUnion
    apply flatMap_congr_mem
    intro j hj
    rw [(hfacts j (List.mem_range.1 hj)).1, List.map_map]
    exact List.map_congr_left fun p _ => rfl
  have hme : mergeEnts A B =
      (List.range A.size2).flatMap fun j => (mergeCol A B j).map fun p => (j, p.1, p.2.2) := by
    unfold mergeEnts
    apply flatMap_congr_mem
    intro j hj
    rw [← (hfacts j (List.mem_range.1 hj)).2.2.1, List.map_map]
    exact List.map_congr_left fun p _ => rfl
  have htv1 : ∀ p ∈ (List.range A.size2).flatMap
      fun j => (mergeCol A B j).map fun p => (p.2.1, p.2.2), p.1 = 1 ∨ p.1 = 2 := by
    intro p hp
    obtain ⟨j, hj, hp2⟩ := List.mem_flatMap.1 hp
    obtain ⟨q, hq, rfl⟩ := List.mem_map.1 hp2
    exact (hfacts j (List.mem_range.1 hj)).2.1 q hq
  have hloop := uniteLoop_ok _ htv1
  have ha : (((List.range A.size2).flatMap
        fun j => (mergeCol A B j).map fun p => (p.2.1, p.2.2)).map Prod.fst) =
      (patternUnion A B).map fun e => e.2.2 := by
    rw [hpu, List.map_flatMap, List.map_flatMap]
    apply flatMap_congr_mem
    intro j hj
    rw [List.map_map, List.map_map]
    exact List.map_congr_left fun p _ => rfl
  have hdataA : (((List.range A.size2).flatMap
        fun j => (mergeCol A B j).map fun p => (p.2.1, p.2.2)).filter
          fun p => p.1 == 1).map Prod.snd = A.data := by
    rw [filter_flatMap, List.map_flatMap]
    rw [flatMap_congr_mem fun j hj =>
      show ((((mergeCol A B j).map fun p => (p.2.1, p.2.2)).filter
          fun p => p.1 == 1).map Prod.snd) = A.dataSlice j by
        rw [List.filter_map, List.map_map]
        exact (hfacts j (List.mem_range.1 hj)).2.2.2.1]
    rw [flatMap_dataSlice hwfA _ le_rfl, hwfA.2.2.2.1, ← hwfA.2.2.2.2.1]
    exact List.take_length _
  have hdataB : (((List.range A.size2).flatMap
        fun j => (mergeCol A B j).map fun p => (p.2.1, p.2.2)).filter
          fun p => p.1 == 2).map Prod.snd = B.data := by
    rw [filter_flatMap, List.map_flatMap]
    rw [flatMap_congr_mem fun j hj =>
      show ((((mergeCol A B j).map fun p => (p.2.1, p.2.2)).filter
          fun p => p.1 == 2).map Prod.snd) = B.dataSlice j by
        rw [List.filter_map, List.map_map]
        exact (hfacts j (List.mem_range.1 hj)).2.2.2.2]
    rw [h2, flatMap_dataSlice hwfB _ le_rfl, hwfB.2.2.2.1, ← hwfB.2.2.2.2.1]
    exact List.take_length _
  have hvals : (((List.range A.size2).flatMap
        fun j => (mergeCol A B j).map fun p => (p.2.1, p.2.2)).map Prod.snd) =
      (mergeEnts A B).map fun e => e.2.2 := by
    rw [hme, List.map_flatMap, List.map_flatMap]
    apply flatMap_congr_mem
    intro j hj
    rw [List.map_map, List.map_map]
    exact List.map_congr_left fun p _ => rfl
  have hkeys : (patternUnion A B).map (fun e => e.1) = (mergeEnts A B).map fun e => e.1 := by
    rw [hpu, hme, List.map_flatMap, List.map_flatMap]
    apply flatMap_congr_mem
    intro j hj
    rw [List.map_map, List.map_map]
    exact List.map_congr_left fun p _ => rfl
  have hrows : (patternUnion A B).map (fun e => e.2.1) = (mergeEnts A B).map fun e => e.2.1 := by
    rw [hpu, hme, List.map_flatMap, List.map_flatMap]
    apply flatMap_congr_mem
    intro j hj
    rw [List.map_map, List.map_map]
    exact List.map_congr_left fun p _ => rfl
  unfold unite
  rw [← ha, ← hdataA, ← hdataB, hloop]
  simp only [Except.bind, List.isEmpty_nil, Bool.and_self, reduceIte]
  unfold ofEnts
  rw [Except.ok.injEq, Mat.mk.injEq]
  refine ⟨rfl, rfl, ?_, ?_, ?_⟩
  · apply List.map_congr_left
    intro j hj
    exact length_filter_key hkeys fun k => decide (k < j)
  · exact hrows
  · exact hvals

lemma hasNZ_iff {M : Mat α} {i j : ℕ} : hasNZ M i j = true ↔ i ∈ M.colSlice j := by
  simp [hasNZ]

/-- A wellformed 2 by 2 anti-diagonal matrix, pattern-disjoint from exMat. -/
def exMatB : Mat ℚ := ⟨2, 2, [0, 1, 2], [1, 0], [3, 4]⟩

/-- C7: for wellformed equal-sized matrices, unite(A, B) raises the
pattern-intersection error whenever some position is a structural nonzero
of both patterns, and when the patterns are disjoint it returns the
matrix over the union pattern in which each nonzero takes its value from
whichever of A or B owns that position. -/
theorem c7_unite_disjoint_patterns (A B : Mat α) (hwfA : A.WF) (hwfB : B.WF)
    (hr : A.size1 = B.size1) (hc : A.size2 = B.size2) :
    ((∃ i < A.size1, ∃ j < A.size2, hasNZ A i j = true ∧ hasNZ B i j = true) →
      ∃ e, unite A B = .error e) ∧
    ((∀ i < A.size1, ∀ j < A.size2, ¬(hasNZ A i j = true ∧ hasNZ B i j = true)) →
      unite A B = .ok (ofEnts A.size1 A.size2 (mergeEnts A B))) := by
  constructor
  · rintro ⟨i, hi, j, hj, hA, hB⟩
    exact unite_overlap_error hwfA hwfB hc hj (hasNZ_iff.1 hA) (hasNZ_iff.1 hB)
  · intro hd
    apply unite_disjoint_eq hwfA hwfB hc
    intro j hj i hiA hiB
    have hi : i < A.size1 := (hwfA.2.2.2.2.2 j hj).2 i hiA
    exact hd i hi j hj ⟨hasNZ_iff.2 hiA, hasNZ_iff.2 hiB⟩

/-- Witness for C7: the diagonal and anti-diagonal 2 by 2 matrices have
disjoint patterns and unite to the dense union matrix; uniting the
diagonal matrix with itself hits the pattern intersection error. -/
theorem c7_unite_disjoint_patterns_witness :
    (exMat.WF ∧ exMatB.WF ∧ exMat.size1 = exMatB.size1 ∧ exMat.size2 = exMatB.size2 ∧
      (∀ i < exMat.size1, ∀ j < exMat.size2,
        ¬(hasNZ exMat i j = true ∧ hasNZ exMatB i j = true)) ∧
      unite exMat exMatB = .ok (ofEnts exMat.size1 exMat.size2 (mergeEnts exMat exMatB))) ∧
    ((∃ i < exMat.size1, ∃ j < exMat.size2,
        hasNZ exMat i j = true ∧ hasNZ exMat i j = true) ∧
      ∃ e, unite exMat exMat = .error e) :=
  ⟨⟨by decide, by decide, by decide, by decide, by decide,
    (c7_unite_disjoint_patterns exMat exMatB (by decide) (by decide) (by decide)
      (by decide)).2 (by decide)⟩,
   ⟨by decide,
    (c7_unite_disjoint_patterns exMat exMat (by decide) (by decide) rfl rfl).1 (by decide)⟩⟩

/-! ### Linear algebra: determinant, inverse, solve, pseudo-inverse -/

/-- Failure modes of the fuelled numeric routines: a raised CasADi error,
or exhausted recursion fuel. -/
inductive MErr where
  | err : String → MErr
  | outOfFuel : MErr
deriving DecidableEq, Repr

/-- Modelled from the spec: Matrix::elem const access (matrix.hpp is not
among the selected sources); reading a position that is not a structural
nonzero yields the zero element. -/
def Mat.get [Zero α] (M : Mat α) (i j : ℕ) : α :=
  ((M.toEnts.find? fun e => e.1 == j && e.2.1 == i).map fun e => e.2.2).getD 0

/-- isDense: every position is a structural nonzero. -/
def Mat.isDense (M : Mat α) : Bool := decide (M.row.length = M.size1 * M.size2)

/-- Modelled from the spec: lower-triangular sparsity test (every
structural nonzero on or below the diagonal). -/
def Mat.isTril (M : Mat α) : Bool :=
  (List.range M.size2).all fun j => (M.colSlice j).all fun i => decide (j ≤ i)

/-- Modelled from the spec: upper-triangular sparsity test. -/
def Mat.isTriu (M : Mat α) : Bool :=
  (List.range M.size2).all fun j => (M.colSlice j).all fun i => decide (i ≤ j)

/-- Some stored nonzero is numerically zero. -/
def hasNonStructuralZeros [Zero α] [DecidableEq α] (M : Mat α) : Bool :=
  M.data.any fun v => decide (v = 0)

/-- Modelled from the spec: sparsify drops the stored zeros from the
pattern. -/
def sparsify [Zero α] [DecidableEq α] (M : Mat α) : Mat α :=
  ofEnts M.size1 M.size2 (M.toEnts.filter fun e => !(decide (e.2.2 = 0)))

/-- Sorted additive merge of two per-column (row, value) lists, with an
explicit fuel so that it is structurally recursive; the fuel never runs
out when it is at least the combined length. -/
def mergeAddF [Add α] : ℕ → List (ℕ × α) → List (ℕ × α) → List (ℕ × α)
  | 0, as, bs => as ++ bs
  | _ + 1, [], bs => bs
  | _ + 1, as, [] => as
  | n + 1, a :: as, b :: bs =>
    if a.1 < b.1 then a :: mergeAddF n as (b :: bs)
    else if b.1 < a.1 then b :: mergeAddF n (a :: as) bs
    else (a.1, a.2 + b.2) :: mergeAddF n as bs

/-- Sorted additive merge of two per-column (row, value) lists. -/
def mergeAdd [Add α] (as bs : List (ℕ × α)) : List (ℕ × α) :=
  mergeAddF (as.length + bs.length) as bs

/-- Modelled from the spec: the sparse matrix product (Matrix::mul is not
among the selected sources).  Column k of the product accumulates, for
every nonzero (j, b) of column k of B, column j of A scaled by b; the
pattern is the structural pattern product. -/
def mul [Semiring α] (A B : Mat α) : Mat α :=
  ofEnts A.size1 B.size2 <| (List.range B.size2).flatMap fun k =>
    (((B.colSlice k).zip (B.dataSlice k)).foldl
      (fun acc p => mergeAdd acc (((A.colSlice p.1).zip (A.dataSlice p.1)).map
        fun q => (q.1, p.2 * q.2))) []).map fun q => (k, q.1, q.2)

/-- The all-ones dense matrix over the naturals, used for the nonzero
counts of det. -/
def onesMat (r c : ℕ) : Mat ℕ :=
  ⟨r, c, (List.range (c + 1)).map (· * r), (List.range c).flatMap fun _ => List.range r,
   List.replicate (c * r) 1⟩

/-- IMatrix(a.sparsity(), 1): ones on the nonzeros of a. -/
def spOnes (a : Mat α) : Mat ℕ :=
  ⟨a.size1, a.size2, a.colind, a.row, a.data.map fun _ => 1⟩

/-- Index of the first minimum of a list (std::min_element). -/
def idxOfMin : List ℕ → ℕ
  | [] => 0
  | x :: xs => if xs.all fun y => decide (x ≤ y) then 0 else idxOfMin xs + 1

/-- The minor matrix of getMinor: remove column i and row j and shift the
remaining entries. -/
def minorMat (x : Mat α) (i j : ℕ) : Mat α :=
  ofEnts (x.size2 - 1) (x.size2 - 1)
    ((x.toEnts.filter fun e => !(e.1 == i) && !(e.2.1 == j)).map fun e =>
      ((if e.1 < i then e.1 else e.1 - 1), (if e.2.1 < j then e.2.1 else e.2.1 - 1), e.2.2))

/-- getMinor(x, i, j) with the recursive determinant passed explicitly. -/
def getMinorF [Zero α] [One α] (detrec : Mat α → Except MErr α) (x : Mat α) (i j : ℕ) :
    Except MErr α :=
  if x.size2 ≠ x.size1 then .error (.err "getMinor: matrix must be square")
  else if x.size2 = 1 then .ok 1
  else detrec (minorMat x i j)

/-- cofactor(x, i, j) = (1 - 2*((i+j) mod 2)) * minor. -/
def cofactorF [CommRing α] (detrec : Mat α → Except MErr α) (x : Mat α) (i j : ℕ) :
    Except MErr α :=
  (getMinorF detrec x i j).map fun m => ((1 - 2 * (((i + j) % 2 : ℕ) : ℤ) : ℤ) : α) * m

/-- det(a) with recursion fuel, translated branch by branch from the
source: square check; scalar and 2 by 2 base cases; the blank-row
short-circuit; then the second guard, which in the source re-tests
row_count (matrix_tools.hpp line 467) under the comment "A blank col?
determinant is structurally zero"; then cofactor expansion along the row
or column with the fewest nonzeros. -/
def detF [CommRing α] : ℕ → Mat α → Except MErr α
  | 0, _ => .error .outOfFuel
  | fuel + 1, a =>
    if a.size2 ≠ a.size1 then .error (.err "matrix must be square")
    else if a.size1 = 1 ∧ a.size2 = 1 then .ok (a.get 0 0)
    else if a.size2 = 2 then
      .ok (a.get 0 0 * a.get 1 1 - a.get 0 1 * a.get 1 0)
    else
      let sp := spOnes a
      let row_count := mul sp (onesMat a.size2 1)
      if !row_count.isDense then .ok 0
      else
        let col_count := transpose (mul (onesMat 1 a.size1) sp)
        if !row_count.isDense then .ok 0
        else
          let min_row := idxOfMin row_count.data
          let min_col := idxOfMin col_count.data
          if min_row ≤ min_col then
            let j := row_count.row.getD min_row 0
            ((((a.toEnts.filter fun e => e.2.1 == j).map fun e => (e.1, e.2.2)).mapM fun p =>
              (cofactorF (fun m => detF fuel m) a p.1 j).map fun cf => p.2 * cf).map fun l =>
                l.foldl (· + ·) 0)
          else
            let i := col_count.row.getD min_col 0
            ((((a.colSlice i).zip (a.dataSlice i)).mapM fun p =>
              (cofactorF (fun m => detF fuel m) a i p.1).map fun cf => p.2 * cf).map fun l =>
                l.foldl (· + ·) 0)

/-- adj(a): the transposed cofactor matrix, dropping cofactors that are
identically zero. -/
def adjF [CommRing α] [DecidableEq α] (detrec : Mat α → Except MErr α) (a : Mat α) :
    Except MErr (Mat α) :=
  if a.size2 ≠ a.size1 then .error (.err "adj: matrix must be square")
  else
    (((List.range a.size2).mapM fun i =>
      (((List.range a.size2).mapM fun j => (cofactorF detrec a i j).map fun c => (j, c)).map
        fun colEnts => (colEnts.filter fun p => !(decide (p.2 = 0))).map fun p => (i, p.1, p.2))).map
      fun cols => transpose (ofEnts a.size2 a.size2 cols.flatten))

/-- Elementwise division of the stored nonzeros by a scalar. -/
def divScalar [Div α] (M : Mat α) (d : α) : Mat α :=
  ⟨M.size1, M.size2, M.colind, M.row, M.data.map (· / d)⟩

/-- inv(a) = adj(a)/det(a), the Laplace formula. -/
def invF [Field α] [DecidableEq α] (detrec : Mat α → Except MErr α) (a : Mat α) :
    Except MErr (Mat α) :=
  (adjF detrec a).bind fun adjA => (detrec a).map fun d => divScalar adjA d

/-- Look up entry (i, k) of a column-major entry list. -/
def getE2 (ents : List (ℕ × ℕ × α)) (i k : ℕ) : Option α :=
  (ents.find? fun e => e.1 == k && e.2.1 == i).map fun e => e.2.2

/-- Write entry (i, k) of a column-major entry list, inserting the
position in column-major order when it is not yet structural. -/
def setE2 (ents : List (ℕ × ℕ × α)) (i k : ℕ) (v : α) : List (ℕ × ℕ × α) :=
  if ents.any fun e => e.1 == k && e.2.1 == i then
    ents.map fun e => if e.1 == k && e.2.1 == i then (e.1, e.2.1, v) else e
  else
    ents.takeWhile (fun e => decide (e.1 < k ∨ (e.1 = k ∧ e.2.1 < i))) ++
      (k, i, v) :: ents.dropWhile fun e => decide (e.1 < k ∨ (e.1 = k ∧ e.2.1 < i))

/-- Forward substitution of solve for lower-triangular A: for every
column i forwards and every right-hand side k, divide x(i,k) by the
diagonal if structurally present, then walk the strictly subdiagonal
entries of column i from the bottom up and subtract. -/
def fwdSub [Field α] (A b : Mat α) : Mat α :=
  ofEnts b.size1 b.size2 <| (List.range A.size2).foldl (fun x i =>
    (List.range b.size2).foldl (fun x k =>
      match getE2 x i k with
      | none => x
      | some xik =>
        let xv := xik / A.get i i
        ((((A.colSlice i).zip (A.dataSlice i)).reverse.takeWhile fun q =>
            decide (i < q.1)).foldl (fun x2 q =>
          setE2 x2 q.1 k ((getE2 x2 q.1 k).getD 0 - q.2 * xv)) (setE2 x i k xv))) x) b.toEnts

/-- Backward substitution of solve for upper-triangular A: columns
backwards, walking the strictly superdiagonal entries from the top. -/
def bwdSub [Field α] (A b : Mat α) : Mat α :=
  ofEnts b.size1 b.size2 <| (List.range A.size2).reverse.foldl (fun x i =>
    (List.range b.size2).foldl (fun x k =>
      match getE2 x i k with
      | none => x
      | some xik =>
        let xv := xik / A.get i i
        ((((A.colSlice i).zip (A.dataSlice i)).takeWhile fun q =>
            decide (q.1 < i)).foldl (fun x2 q =>
          setE2 x2 q.1 k ((getE2 x2 q.1 k).getD 0 - q.2 * xv)) (setE2 x i k xv))) x) b.toEnts

/-- Sparse dot product of two (row, value) columns. -/
def dotV [Semiring α] (u v : List (ℕ × α)) : α :=
  u.foldl (fun s p => s + p.2 * ((v.lookup p.1).getD 0)) 0

/-- u - c*v on sorted (row, value) columns, with pattern union. -/
def axpyV [Ring α] (c : α) (u v : List (ℕ × α)) : List (ℕ × α) :=
  mergeAdd u (v.map fun p => (p.1, -(c * p.2)))

/-- A single sparse column as an r by 1 matrix. -/
def vecMat (r : ℕ) (l : List (ℕ × α)) : Mat α :=
  ⟨r, 1, [0, l.length], l.map Prod.fst, l.map Prod.snd⟩

/-- qr(A) by column-wise modified Gram-Schmidt, translated from the
source; the scalar square root is passed in (norm_2 of a column is the
square root of its sum of squares).  In the source ri(j,0) is always
assigned before the hasNZ(j,0) guard, so the projection is always
subtracted. -/
def qrF [Field α] (sqrtF : α → α) (A : Mat α) : Except MErr (Mat α × Mat α) :=
  if A.size1 < A.size2 then .error (.err "qr: fewer rows than columns")
  else
    let qr := (List.range A.size2).foldl
      (fun (acc : List (List (ℕ × α)) × List (List (ℕ × α))) i =>
        let ai := (A.colSlice i).zip (A.dataSlice i)
        let st := acc.1.foldl (fun (st : List (ℕ × α) × List (ℕ × α)) qj =>
          let rij := dotV st.1 qj
          (axpyV rij st.1 qj, st.2 ++ [(st.2.length, rij)])) (ai, [])
        let nrm := sqrtF (st.1.foldl (fun s p => s + p.2 * p.2) 0)
        (acc.1 ++ [st.1.map fun p => (p.1, p.2 / nrm)], acc.2 ++ [st.2 ++ [(i, nrm)]]))
      ([], [])
    .ok (horzcat (qr.1.map (vecMat A.size1)), horzcat (qr.2.map (vecMat A.size2)))

/-- solve(A, b) with recursion fuel, translated branch by branch:
dimension and squareness checks, forward and backward substitution for
triangular A, the sparsify-and-rerun branch, then the BLT branch.
dulmageMendelsohn is external to the selected sources and is modelled
from the spec as the identity permutation, so Aperm = A and bperm = b and
the inverse column permutation is the identity; the permuted system is
solved by substitution, by inverse multiplication for orders up to 3, or
through a QR factorization. -/
def solveF [Field α] [DecidableEq α] (sqrtF : α → α) : ℕ → Mat α → Mat α → Except MErr (Mat α)
  | 0, _, _ => .error .outOfFuel
  | fuel + 1, A, b =>
    if A.size1 ≠ b.size1 then .error (.err "solve Ax=b: dimension mismatch")
    else if A.size1 ≠ A.size2 then .error (.err "solve: A not square")
    else if A.isTril then .ok (fwdSub A b)
    else if A.isTriu then .ok (bwdSub A b)
    else if hasNonStructuralZeros A then solveF sqrtF fuel (sparsify A) b
    else
      if A.isTril then solveF sqrtF fuel A b
      else if A.size2 ≤ 3 then
        (invF (fun m => detF fuel m) A).map fun Ai => mul Ai b
      else
        (qrF sqrtF A).bind fun QR => solveF sqrtF fuel QR.2 (mul (transpose QR.1) b)

/-- pinv(A): wide matrices solve the normal equations (A Aᵀ) X = A and
transpose, tall matrices solve (Aᵀ A) X = Aᵀ. -/
def pinvF [Field α] [DecidableEq α] (sqrtF : α → α) (fuel : ℕ) (A : Mat α) :
    Except MErr (Mat α) :=
  if A.size2 ≥ A.size1 then
    (solveF sqrtF fuel (mul A (transpose A)) A).map transpose
  else
    solveF sqrtF fuel (mul (transpose A) A) (transpose A)

deriving instance DecidableEq for Except

/-- A square integer matrix whose column 0 is structurally empty while
every row is structurally nonempty: colind [0, 0, 3, 6]. -/
def M0 : Mat ℤ := ⟨3, 3, [0, 0, 3, 6], [0, 1, 2, 0, 1, 2], [1, 2, 3, 4, 5, 6]⟩

/-- A square integer matrix whose row 0 is structurally empty while every
column is structurally nonempty. -/
def M1 : Mat ℤ := ⟨3, 3, [0, 2, 4, 6], [1, 2, 1, 2, 1, 2], [1, 2, 3, 4, 5, 6]⟩

/-- A dense 2 by 2 integer matrix. -/
def M22 : Mat ℤ := ⟨2, 2, [0, 2, 4], [0, 1, 0, 1], [1, 2, 3, 4]⟩

/-- A 2 by 3 (non-square) integer matrix. -/
def Mns : Mat ℤ := ⟨2, 3, [0, 1, 2, 3], [0, 1, 0], [1, 2, 3]⟩

/-- C5: the failing conjunct is the structurally-blank-column
short-circuit.  Non-square input raises the dimension error and the 2 by
2 closed formula holds; a blank ROW short-circuits to 0 with no recursion
(detF at fuel 1, which forbids any recursive cofactor expansion, already
returns 0 on M1); but on M0 — square, every row structurally nonempty,
column 0 structurally empty — det recurses into the cofactor expansion,
because the source re-tests row_count instead of col_count at
matrix_tools.hpp line 467: at fuel 1 it runs out of fuel instead of
returning 0, and only at fuel 2 does the recursive expansion return 0. -/
theorem c5_det_blank_column_recurses :
    detF 1 Mns = .error (.err "matrix must be square") ∧
    detF 1 M22 = .ok (M22.get 0 0 * M22.get 1 1 - M22.get 0 1 * M22.get 1 0) ∧
    M1.WF ∧ (M1.toEnts.filter fun e => e.2.1 == 0) = [] ∧ detF 1 M1 = .ok 0 ∧
    M0.WF ∧ M0.colSlice 0 = [] ∧
    ((List.range M0.size1).all fun i =>
      !(M0.toEnts.filter fun e => e.2.1 == i).isEmpty) = true ∧
    detF 1 M0 = .error .outOfFuel ∧ detF 2 M0 = .ok 0 :=
  ⟨by decide, by decide, by decide, by decide, by decide,
   by decide, by decide, by decide, by decide, by decide⟩

/-- A 2 by 1 (tall) rational matrix. -/
def exMatTall : Mat ℚ := ⟨2, 1, [0, 1], [0], [3]⟩

/-- C8: pinv picks the branch by comparing the dimensions and delegates
to solve on the normal equations: for wide A (at least as many columns as
rows) it is the transpose of solve(A Aᵀ, A), otherwise it is
solve(Aᵀ A, Aᵀ). -/
theorem c8_pinv_normal_equations [Field α] [DecidableEq α]
    (sqrtF : α → α) (fuel : ℕ) (A : Mat α) :
    (A.size1 ≤ A.size2 →
      pinvF sqrtF fuel A = (solveF sqrtF fuel (mul A (transpose A)) A).map transpose) ∧
    (A.size2 < A.size1 →
      pinvF sqrtF fuel A = solveF sqrtF fuel (mul (transpose A) A) (transpose A)) := by
  constructor
  · intro h
    rw [pinvF, if_pos h]
  · intro h
    rw [pinvF, if_neg (by omega)]

/-- Witness for C8 at a wide (2 by 2) and a tall (2 by 1) matrix. -/
theorem c8_pinv_normal_equations_witness :
    (exMat.size1 ≤ exMat.size2 ∧
      pinvF id 5 exMat = (solveF id 5 (mul exMat (transpose exMat)) exMat).map transpose) ∧
    (exMatTall.size2 < exMatTall.size1 ∧
      pinvF id 5 exMatTall =
        solveF id 5 (mul (transpose exMatTall) exMatTall) (transpose exMatTall)) :=
  ⟨⟨by decide, (c8_pinv_normal_equations id 5 exMat).1 (by decide)⟩,
   ⟨by decide, (c8_pinv_normal_equations id 5 exMatTall).2 (by decide)⟩⟩

end CasADi
